import Mathlib

/-!
Verification of the palette-quantization and GIF-frame-emission core of the
`gg` graphics library (package `quantize`, file `mediancut.go`, together with
the GIF encode pass `EncodeGIF`).

The Go code is shallowly embedded:

* colors are 8-bit-per-channel RGBA values, modelled as `Rgba` with `Nat`
  fields (machine widths are irrelevant to the verified properties except
  where noted, in which case reductions `% 2 ^ 32` / `% 256` appear
  explicitly);
* images (`image.Image` values accessed through `colorAt` / `At`) are
  modelled as `Img`: a width, a height, and a total per-pixel color
  function with bounds `Min = (0, 0)`, `Max = (w, h)`;
* the process-wide `sync.Pool` of scratch buckets is modelled as an explicit
  `PoolState` threaded through the functions that touch it.  A pool entry
  records the dynamic type it was stored at (`PoolItem.slice` for a
  `colorBucket`, `PoolItem.ptr` for a `*colorBucket`), because `getBucket`
  performs the type assertion `val.(colorBucket)`, which panics on a
  pointer-typed entry; a panic is modelled as `none`;
* the collision-probe loop of `buildBucketMultiple` is an unbounded `for`
  loop in Go; it is modelled with an explicit fuel parameter, `none` meaning
  the loop has not terminated within the given fuel.  The same fuel
  parameter bounds the work-queue loop of `bucketize`.

The file `bucket.go` of the `quantize` package (declaring `colorPriority`,
`colorBucket.partition` and `colorBucket.mean`) is not part of the provided
sources; those definitions are modelled from the specification and are
marked `Modelled from the spec:` in their doc comments.

The sources carry two `EncodeGIF` implementations.  Both are embedded: the
delay-taking variant that tracks the reserved transparent index in `transId`
(`encodeGIF`), and the fps-taking variant that writes palette index 0 for
every alpha-0 pixel (`encodeGIFFps`).  They disagree on which index an
alpha-0 pixel receives; the disagreement is proved concrete below.
-/

/-- Modelled from the spec: a ColorSample color, an RGBA8 quadruple
(`color.RGBA` in the source). -/
structure Rgba where
  r : Nat
  g : Nat
  b : Nat
  a : Nat
deriving DecidableEq, Repr

/-- Modelled from the spec: a ColorSample, pairing a weight (`p`, the
priority accumulator of `colorPriority` from the missing `bucket.go`) with an
RGBA8 color.  Weight `0` marks an empty slot of the sparse table. -/
structure colorPriority where
  p : Nat
  rgba : Rgba
deriving DecidableEq, Repr

/-- The zero `colorPriority`, the value of a freshly zeroed table slot. -/
def zeroSample : colorPriority := ⟨0, ⟨0, 0, 0, 0⟩⟩

/-- `colorBucket` from the source: a sequence of weighted color samples. -/
abbrev colorBucket : Type := List colorPriority

/-- A value stored in the scratch `sync.Pool`, together with the dynamic
type it was stored at.  `QuantizeMultiple` executes `bpool.Put(&bucket)`, so
entries put back by it are pointer-typed (`ptr`); `getBucket` asserts the
value to `colorBucket` (`slice`), and the assertion panics on a `ptr`
entry. -/
inductive PoolItem where
  | slice (buf : List colorPriority)
  | ptr (buf : List colorPriority)
deriving DecidableEq, Repr

/-- The shared scratch pool: the capacity estimate `maxCap` plus the free
list (at most one entry is modelled, which suffices for every property
considered here; `Get` may also return nothing, covered by `none`). -/
structure PoolState where
  maxCap : Nat
  pooled : Option PoolItem
deriving DecidableEq, Repr

/-- `bucketPool.getBucket` from `mediancut.go`: update the decaying capacity
estimate, then either reuse the pooled buffer (re-sliced to length `c` and
zeroed) or allocate a fresh zeroed buffer of length `maxCap` re-sliced to
`c`.  The type assertion `val.(colorBucket)` panics (`none`) when the pooled
entry is pointer-typed. -/
def getBucket (st : PoolState) (c : Nat) : Option (List colorPriority × PoolState) :=
  let m1 := if c < st.maxCap then st.maxCap * 99 / 100 else st.maxCap
  let m2 := if m1 < c then c else m1
  match st.pooled with
  | none => some ((List.replicate m2 zeroSample).take c, ⟨m2, none⟩)
  | some (.ptr _) => none
  | some (.slice buf) =>
    if buf.length < c then
      some ((List.replicate m2 zeroSample).take c, ⟨m2, none⟩)
    else
      some ((buf.take c).map (fun _ => zeroSample), ⟨m2, none⟩)

/-- `AggregationType` from the source. -/
inductive AggregationType where
  | Mode
  | Mean
deriving DecidableEq, Repr

/-- An image, as consumed through `colorAt` (the `*image.RGBA` branch) and
`At`: bounds `Min = (0, 0)`, `Max = (w, h)` and a total per-pixel RGBA8
sampling function. -/
structure Img where
  w : Nat
  h : Nat
  pix : Nat → Nat → Rgba

/-- `MedianCutQuantizer` from the source.  The optional `Weighting` callback
is kept as a function value; `none` is Go's `nil` (default weight 1). -/
structure MedianCutQuantizer where
  aggregation : AggregationType
  weighting : Option (Img → Nat → Nat → Nat)
  reserveTransparent : Bool

/-- `colorAt` from the source, restricted to the RGBA image model: read the
pixel unchanged. -/
def colorAt (m : Img) (x y : Nat) : Rgba := m.pix x y

/-- The 24-bit starting index of the probe sequence:
`int(c.R)<<16 | int(c.G)<<8 | int(c.B)`. -/
def colorIndex (c : Rgba) : Nat := (c.r <<< 16) ||| (c.g <<< 8) ||| c.b

/-- The collision-probe loop of `buildBucketMultiple`: examine slot
`index % size`; on an empty slot or one holding the identical color,
accumulate `prio` there; otherwise retry at `index + 1 + i` with `i + 1`.
The Go loop is unbounded; `fuel` bounds it here, `none` meaning it has not
terminated within `fuel` steps. -/
def probeInsert : Nat → List colorPriority → Nat → Nat → Nat → Nat → Rgba →
    Option (List colorPriority)
  | 0, _, _, _, _, _, _ => none
  | fuel + 1, tbl, size, idx, i, prio, c =>
    let j := idx % size
    let e := tbl.getD j zeroSample
    if e.p = 0 ∨ e.rgba = c then some (tbl.set j ⟨e.p + prio, c⟩)
    else probeInsert fuel tbl size (idx + 1 + i) (i + 1) prio c

/-- One iteration of the pixel scan of `buildBucketMultiple`: compute the
pixel's weight (default `1` when no `Weighting` callback is set), read its
color; an alpha-0 pixel only records that transparency was observed; an
opaque pixel with nonzero weight is accumulated into the sparse table. -/
def scanPixel (wfn : Option (Img → Nat → Nat → Nat)) (size fuel : Nat)
    (m : Img) (x y : Nat) (st : List colorPriority × Bool) :
    Option (List colorPriority × Bool) :=
  let prio := match wfn with
    | none => 1
    | some f => f m x y
  let c := colorAt m x y
  if c.a = 0 then some (st.1, true)
  else if prio ≠ 0 then
    (probeInsert fuel st.1 size (colorIndex c) 1 prio c).map (fun t => (t, st.2))
  else some st

/-- The pixel scan of `buildBucketMultiple` over a list of pixels, threading
the sparse table and the transparency flag. -/
def scanList (wfn : Option (Img → Nat → Nat → Nat)) (size fuel : Nat) :
    List (Img × Nat × Nat) → List colorPriority × Bool →
    Option (List colorPriority × Bool)
  | [], st => some st
  | px :: rest, st =>
    (scanPixel wfn size fuel px.1 px.2.1 px.2.2 st).bind (scanList wfn size fuel rest)

/-- The pixel coordinates of a `w × h` frame in scan order: `y` outer, `x`
inner, exactly the two nested `for` loops of the source. -/
def pixelsOf (w h : Nat) : List (Nat × Nat) :=
  (List.range h).flatMap (fun y => (List.range w).map (fun x => (x, y)))

/-- The pixels scanned by `buildBucketMultiple`: every frame of the list is
walked over the bounds of the first frame. -/
def allPixels (ms : List Img) (w h : Nat) : List (Img × Nat × Nat) :=
  ms.flatMap (fun m => (pixelsOf w h).map (fun xy => (m, xy.1, xy.2)))

/-- `buildBucketMultiple` from the source: take a zeroed sparse table of
twice the first frame's pixel count from the pool, scan every pixel of every
frame into it, then compact it by dropping empty slots.  The receiver's
`ReserveTransparent` mutation is returned as an updated quantizer, and the
pool state after the `getBucket` call is returned alongside. -/
def buildBucketMultiple (fuel : Nat) (q : MedianCutQuantizer) (st : PoolState)
    (ms : List Img) : Option (List colorPriority × MedianCutQuantizer × PoolState) :=
  match ms with
  | [] => some ([], q, st)
  | m0 :: _ =>
    let size := m0.w * m0.h * 2
    (getBucket st size).bind (fun bst =>
      (scanList q.weighting size fuel (allPixels ms m0.w m0.h)
          (bst.1, q.reserveTransparent)).map
        (fun tr =>
          (tr.1.filter (fun s => s.p != 0),
           { q with reserveTransparent := tr.2 },
           bst.2)))

/-- Total sample weight of a bucket. -/
def bucketWeight (l : colorBucket) : Nat := (l.map (fun s => s.p)).sum

/-- Modelled from the spec: the value spread of one channel (greatest minus
least value over the bucket's samples); `bucket.go` is missing from the
sources. -/
def channelSpread (f : Rgba → Nat) (l : colorBucket) : Nat :=
  ((l.map (fun s => f s.rgba)).foldl Nat.max 0) -
    ((l.map (fun s => f s.rgba)).foldl Nat.min ((l.map (fun s => f s.rgba)).headD 0))

/-- Modelled from the spec: the channel (R, G or B) of greatest spread,
ties resolved by first-seen order (R, then G, then B); `bucket.go` is
missing from the sources. -/
def widestChannel (l : colorBucket) : Rgba → Nat :=
  let sr := channelSpread (fun c => c.r) l
  let sg := channelSpread (fun c => c.g) l
  let sb := channelSpread (fun c => c.b) l
  if sr < sg then
    (if sg < sb then (fun c => c.b) else (fun c => c.g))
  else
    (if sr < sb then (fun c => c.b) else (fun c => c.r))

/-- Modelled from the spec: stable sort of a bucket by one channel's value
(stability realises the first-seen tie-break); `bucket.go` is missing from
the sources. -/
def sortByChannel (f : Rgba → Nat) (l : colorBucket) : colorBucket :=
  l.mergeSort (fun s t => Nat.ble (f s.rgba) (f t.rgba))

/-- Modelled from the spec: how far splitting before position `i` deviates
from an even weight balance between the halves; `bucket.go` is missing from
the sources. -/
def splitCost (l : colorBucket) (i : Nat) : Nat :=
  (2 * (bucketWeight (l.take i) : Int) - (bucketWeight l : Int)).natAbs

/-- Modelled from the spec: the split position balancing total weight as
evenly as possible between the two halves, the first best position winning
ties; the position ranges over `[1, length - 1]` so that both halves are
non-empty.  `bucket.go` is missing from the sources. -/
def splitIndex (l : colorBucket) : Nat :=
  (List.range (l.length - 1)).foldl
    (fun best j => if splitCost l (j + 1) < splitCost l best then j + 1 else best) 1

/-- Modelled from the spec: one median-cut step — sort the bucket along its
widest channel and split it at the weighted-median position; `bucket.go` is
missing from the sources. -/
def partitionBucket (l : colorBucket) : colorBucket × colorBucket :=
  let s := sortByChannel (widestChannel l) l
  (s.take (splitIndex s), s.drop (splitIndex s))

/-- The work-queue loop of `bucketize`: while fewer buckets than both the
target and the input color count exist, pop the head bucket; re-queue a
singleton unchanged, split a pair into two singletons, and median-cut split
anything larger.  The Go loop can run forever (a full rotation of singleton
buckets repeats the state exactly), so it is bounded by `fuel`; `none` also
covers the `buckets[0]` panic on an empty queue. -/
def bucketizeAux : Nat → List colorBucket → Nat → Nat → Option (List colorBucket)
  | 0, _, _, _ => none
  | fuel + 1, buckets, num, nc =>
    if buckets.length < num ∧ buckets.length < nc then
      match buckets with
      | [] => none
      | b :: rest =>
        if b.length < 2 then bucketizeAux fuel (rest ++ [b]) num nc
        else if b.length = 2 then bucketizeAux fuel (rest ++ [b.take 1, b.drop 1]) num nc
        else
          bucketizeAux fuel (rest ++ [(partitionBucket b).1, (partitionBucket b).2]) num nc
    else some buckets

/-- `bucketize` from the source: empty input or a zero target yields no
buckets, otherwise the work queue starts from the single input bucket. -/
def bucketize (fuel : Nat) (colors : colorBucket) (num : Nat) :
    Option (List colorBucket) :=
  if colors.length = 0 ∨ num = 0 then some []
  else bucketizeAux fuel [colors] num colors.length

/-- The `Mode` aggregation loop of `palettize`: keep the first sample whose
weight strictly exceeds the current best, starting from the zero sample. -/
def bestSample (l : colorBucket) : colorPriority :=
  l.foldl (fun best c => if best.p < c.p then c else best) zeroSample

/-- Modelled from the spec: `Mean` aggregation, the weight-proportional
per-channel average rounded to the nearest 8-bit value; `bucket.go`
(`colorBucket.mean`) is missing from the sources. -/
def bucketMean (l : colorBucket) : Rgba :=
  let tw := bucketWeight l
  let avg := fun f : Rgba → Nat => ((l.map (fun s => s.p * f s.rgba)).sum + tw / 2) / tw
  ⟨avg (fun c => c.r), avg (fun c => c.g), avg (fun c => c.b), avg (fun c => c.a)⟩

/-- `palettize` from the source: append one representative color per bucket,
by `Mean` averaging or `Mode` highest-weight selection. -/
def palettize (agg : AggregationType) (p : List Rgba) (buckets : List colorBucket) :
    List Rgba :=
  buckets.foldl
    (fun acc b =>
      acc ++ [match agg with
        | .Mean => bucketMean b
        | .Mode => (bestSample b).rgba]) p

/-- A `color.Palette` under construction: the capacity of the backing slice
plus the entries appended so far. -/
structure Palette where
  cap : Nat
  entries : List Rgba
deriving DecidableEq, Repr

/-- `quantizeSlice` from the source: the bucket target is the remaining
palette capacity, minus one when a transparent slot is still to be reserved.
A negative target reaches `make([]colorBucket, 1, num*2)` with a negative
capacity and panics — but only when the color bucket is non-empty, because
`bucketize`'s `len(colors) == 0` early return precedes the `make`; with an
empty bucket `bucketize` returns `nil` and the palette comes back
unchanged. -/
def quantizeSlice (fuel : Nat) (q : MedianCutQuantizer) (p : Palette)
    (colors : colorBucket) : Option Palette :=
  if ((p.cap : Int) - p.entries.length - (if q.reserveTransparent then 1 else 0)) < 0
  then
    if colors.length = 0 then some ⟨p.cap, palettize q.aggregation p.entries []⟩
    else none
  else
    (bucketize fuel colors
        ((p.cap : Int) - p.entries.length -
          (if q.reserveTransparent then 1 else 0)).toNat).map
      (fun bs => ⟨p.cap, palettize q.aggregation p.entries bs⟩)

/-- `QuantizeMultiple` from the source: build the histogram bucket, quantize
it onto the supplied palette, and return the compacted bucket to the pool —
via `bpool.Put(&bucket)`, i.e. as a pointer-typed entry. -/
def quantizeMultiple (fuel : Nat) (q : MedianCutQuantizer) (st : PoolState)
    (p : Palette) (ms : List Img) :
    Option (Palette × MedianCutQuantizer × PoolState) :=
  (buildBucketMultiple fuel q st ms).bind (fun bqs =>
    (quantizeSlice fuel bqs.2.1 p bqs.1).map
      (fun p' => (p', bqs.2.1, ⟨bqs.2.2.maxCap, some (.ptr bqs.1)⟩)))

/-- The 16-bit-per-channel view of an RGBA8 color, as returned by Go's
`Color.RGBA()` for `color.RGBA` values: each channel is `v | v<<8`,
i.e. `v * 0x101`. -/
def rgba16 (c : Rgba) : Nat × Nat × Nat × Nat :=
  (c.r * 257, c.g * 257, c.b * 257, c.a * 257)

/-- `sqDiff` of Go's `image/color` palette search: the squared channel
difference on `uint32` arithmetic, shifted right by two. -/
def sqDiff (x y : Nat) : Nat :=
  let d := if y ≤ x then x - y else y - x
  d * d % 2 ^ 32 / 4

/-- The loop of Go's `color.Palette.Index`: track the index of the least
color distance seen so far, returning immediately on an exact match. -/
def palIndexAux : List Rgba → Nat × Nat × Nat × Nat → Nat → Nat → Nat → Nat
  | [], _, _, ret, _ => ret
  | v :: rest, c, i, ret, best =>
    let v16 := rgba16 v
    let sum := sqDiff c.1 v16.1 + sqDiff c.2.1 v16.2.1 +
      sqDiff c.2.2.1 v16.2.2.1 + sqDiff c.2.2.2 v16.2.2.2
    if sum < best then
      (if sum = 0 then i else palIndexAux rest c (i + 1) i sum)
    else palIndexAux rest c (i + 1) ret best

/-- `color.Palette.Index`, the linear palette search the encoder falls back
to on a cache miss. -/
def palIndex (pal : List Rgba) (c : Rgba) : Nat :=
  palIndexAux pal (rgba16 c) 0 0 (2 ^ 32 - 1)

/-- The truncated color key of the encoder's per-session cache:
`cid := (cr>>8)<<16 | cg | (cb>>8)` on the 16-bit channel values. -/
def cidOf (c : Rgba) : Nat :=
  let c16 := rgba16 c
  (((c16.1 >>> 8) <<< 16) ||| c16.2.1) ||| (c16.2.2.1 >>> 8)

/-- The per-session palette-index cache `animId`, a truncated-color-key to
palette-index map, modelled as an association list (Go map writes only ever
add a key that is absent, so prepending is an exact model). -/
abbrev IdCache : Type := List (Nat × Nat)

/-- One pixel of the emission loop of `EncodeGIF`: an alpha-0 pixel is
emitted as the reserved transparent index when one was reserved, touching
neither the cache nor the palette; otherwise the truncated key is looked up,
and on a miss one `p.Index` search runs and its result (truncated to
`uint8`) is cached.  The third component records whether this pixel ran a
palette search. -/
def resolvePix (rt : Bool) (transId : Nat) (pal : List Rgba) (c : Rgba)
    (cache : IdCache) : Nat × IdCache × Bool :=
  if rt ∧ c.a = 0 then (transId, cache, false)
  else
    match cache.lookup (cidOf c) with
    | some v => (v, cache, false)
    | none =>
      let v := palIndex pal c % 256
      (v, (cidOf c, v) :: cache, true)

/-- The pixel loop of one frame of `EncodeGIF`, over an explicit coordinate
list, threading the cache and collecting (for analysis) the truncated keys
that triggered a palette search. -/
def emitPixList : List (Nat × Nat) → Img → Bool → Nat → List Rgba → IdCache →
    List Nat × IdCache × List Nat
  | [], _, _, _, _, cache => ([], cache, [])
  | xy :: rest, m, rt, transId, pal, cache =>
    let r := resolvePix rt transId pal (m.pix xy.1 xy.2) cache
    let tail := emitPixList rest m rt transId pal r.2.1
    (r.1 :: tail.1, tail.2.1, (if r.2.2 then [cidOf (m.pix xy.1 xy.2)] else []) ++ tail.2.2)

/-- The frame loop of `EncodeGIF`: each frame's index buffer is produced in
scan order over that frame's own bounds, the cache persisting across
frames within the one encode session. -/
def emitFrames : List Img → Bool → Nat → List Rgba → IdCache →
    List (List Nat) × IdCache × List Nat
  | [], _, _, _, cache => ([], cache, [])
  | m :: rest, rt, transId, pal, cache =>
    let f := emitPixList (pixelsOf m.w m.h) m rt transId pal cache
    let tail := emitFrames rest rt transId pal f.2.1
    (f.1 :: tail.1, tail.2.1, f.2.2 ++ tail.2.2)

/-- The result of `EncodeGIF` up to the external bitstream writer: the final
palette, the per-frame index buffers, the reserved transparent index, the
per-frame delays, and the pool state left behind by `QuantizeMultiple`. -/
structure EncodedGIF where
  palette : List Rgba
  frames : List (List Nat)
  transId : Nat
  delays : List Nat
  pool : PoolState
deriving DecidableEq, Repr

/-- The delay-taking `EncodeGIF` from the source (the variant that tracks a
`transId`): an empty frame list is an error; otherwise quantize all frames
with a `Mode`-aggregating quantizer onto a fresh capacity-256 palette,
reserve the transparent slot when the scan observed transparency
(`transId = uint8(len(p))`, then `append(p, color.Transparent)`), and emit
every frame through a cache created fresh for this session.  The sources
also carry a second, fps-taking `EncodeGIF`; see `encodeGIFFps` below. -/
def encodeGIF (fuel : Nat) (st : PoolState) (ims : List Img) (delay : Nat) :
    Option EncodedGIF :=
  match ims with
  | [] => none
  | _ :: _ =>
    (quantizeMultiple fuel ⟨.Mode, none, false⟩ st ⟨256, []⟩ ims).map
      (fun pqs =>
        let transId := if pqs.2.1.reserveTransparent
          then pqs.1.entries.length % 256 else 0
        let pal := if pqs.2.1.reserveTransparent
          then pqs.1.entries ++ [⟨0, 0, 0, 0⟩] else pqs.1.entries
        let e := emitFrames ims pqs.2.1.reserveTransparent transId pal []
        ⟨pal, e.1, transId, ims.map (fun _ => delay), pqs.2.2⟩)

lemma le_clamp (m1 c : Nat) : c ≤ if m1 < c then c else m1 := by
  split
  · exact Nat.le_refl c
  · omega

lemma getBucket_some (st : PoolState) (c : Nat) (b : List colorPriority)
    (st' : PoolState) (h : getBucket st c = some (b, st')) :
    b = List.replicate c zeroSample ∧ c ≤ st'.maxCap ∧ st'.pooled = none := by
  have hfresh : ∀ m : Nat, c ≤ m →
      (List.replicate m zeroSample).take c = List.replicate c zeroSample := by
    intro m hm
    rw [List.take_replicate, Nat.min_eq_left hm]
  unfold getBucket at h
  rcases st with ⟨mc, pooled⟩
  set m1 := if c < mc then mc * 99 / 100 else mc with hm1
  set m2 := if m1 < c then c else m1 with hm2
  have hcm2 : c ≤ m2 := le_clamp m1 c
  rcases pooled with _ | item
  · simp only [Option.some.injEq, Prod.mk.injEq] at h
    obtain ⟨hb, hst⟩ := h
    subst hst
    exact ⟨by rw [← hb, hfresh m2 hcm2], hcm2, rfl⟩
  · rcases item with buf | buf
    · simp only at h
      split at h
      · simp only [Option.some.injEq, Prod.mk.injEq] at h
        obtain ⟨hb, hst⟩ := h
        subst hst
        exact ⟨by rw [← hb, hfresh m2 hcm2], hcm2, rfl⟩
      · rename_i hlen
        simp only [Option.some.injEq, Prod.mk.injEq] at h
        obtain ⟨hb, hst⟩ := h
        subst hst
        refine ⟨?_, hcm2, rfl⟩
        rw [← hb, List.map_const', List.length_take,
          Nat.min_eq_left (Nat.le_of_not_lt hlen)]
    · exact absurd h (by simp)

/-- C9: `bucketPool.getBucket(c)` hands back a slice of length exactly `c`
whose entries are all the zero `colorPriority` — on both the
fresh-allocation and the pool-reuse path — and afterwards the shared
capacity estimate `maxCap` is at least `c`. -/
theorem c9_getBucket_zeroed (st : PoolState) (c : Nat) (b : List colorPriority)
    (st' : PoolState) (hc : 1 ≤ c) (h : getBucket st c = some (b, st')) :
    b.length = c ∧ (∀ s ∈ b, s = zeroSample) ∧ c ≤ st'.maxCap := by
  obtain ⟨hb, hle, -⟩ := getBucket_some st c b st' h
  subst hb
  exact ⟨List.length_replicate c zeroSample,
    fun s hs => List.eq_of_mem_replicate hs, hle⟩

/-- Witness for C9 at `c = 2` on a pool holding a reusable slice. -/
theorem c9_witness :
    1 ≤ 2 ∧
      ((List.replicate 2 zeroSample : List colorPriority).length = 2 ∧
        (∀ s ∈ (List.replicate 2 zeroSample : List colorPriority), s = zeroSample) ∧
        2 ≤ (PoolState.mk 4 none).maxCap) :=
  ⟨by decide,
    c9_getBucket_zeroed ⟨5, some (.slice [⟨3, ⟨1, 2, 3, 4⟩⟩, ⟨7, ⟨9, 9, 9, 9⟩⟩, ⟨1, ⟨0, 0, 0, 1⟩⟩])⟩
      2 (List.replicate 2 zeroSample) ⟨4, none⟩ (by decide) (by decide)⟩

/-- Whether any pixel scanned by `buildBucketMultiple` (all frames, walked
over the first frame's bounds) is fully transparent. -/
def anyTransparent (ms : List Img) : Bool :=
  match ms with
  | [] => false
  | m0 :: _ => (allPixels ms m0.w m0.h).any (fun px => (px.1.pix px.2.1 px.2.2).a == 0)

lemma scanList_rt (wfn : Option (Img → Nat → Nat → Nat)) (size fuel : Nat) :
    ∀ (ps : List (Img × Nat × Nat)) (st : List colorPriority × Bool)
      (tbl' : List colorPriority) (rt' : Bool),
      scanList wfn size fuel ps st = some (tbl', rt') →
      rt' = (st.2 || ps.any (fun px => (px.1.pix px.2.1 px.2.2).a == 0))
  | [], st, tbl', rt', h => by
    simp only [scanList, Option.some.injEq] at h
    subst h
    simp
  | ⟨m, x, y⟩ :: rest, st, tbl', rt', h => by
    simp only [scanList, scanPixel, colorAt] at h
    generalize hpr : (match wfn with | none => 1 | some f => f m x y) = prio at h
    by_cases ha : (m.pix x y).a = 0
    · rw [if_pos ha, Option.some_bind] at h
      have := scanList_rt wfn size fuel rest (st.1, true) tbl' rt' h
      simp only [List.any_cons, ha, beq_self_eq_true, Bool.true_or, Bool.or_true] at this ⊢
      exact this
    · rw [if_neg ha] at h
      have hax : ((m.pix x y).a == 0) = false := by
        simpa using ha
      split at h
      · rcases hp : probeInsert fuel st.1 size (colorIndex (m.pix x y)) 1 prio (m.pix x y)
            with _ | t
        · rw [hp] at h
          simp at h
        · rw [hp] at h
          simp only [Option.map_some', Option.some_bind] at h
          have := scanList_rt wfn size fuel rest (t, st.2) tbl' rt' h
          simp only [List.any_cons, hax, Bool.false_or] at this ⊢
          exact this
      · rw [Option.some_bind] at h
        have := scanList_rt wfn size fuel rest st tbl' rt' h
        simp only [List.any_cons, hax, Bool.false_or] at this ⊢
        exact this

lemma buildBucketMultiple_mutation (fuel : Nat) (q : MedianCutQuantizer)
    (st : PoolState) (ms : List Img) (bucket : List colorPriority)
    (q' : MedianCutQuantizer) (st' : PoolState)
    (h : buildBucketMultiple fuel q st ms = some (bucket, q', st')) :
    q'.reserveTransparent = (q.reserveTransparent || anyTransparent ms) ∧
      q'.aggregation = q.aggregation ∧ q'.weighting = q.weighting := by
  rcases ms with _ | ⟨m0, rest⟩
  · simp only [buildBucketMultiple, Option.some.injEq, Prod.mk.injEq] at h
    obtain ⟨-, hq, -⟩ := h
    subst hq
    simp [anyTransparent]
  · simp only [buildBucketMultiple] at h
    rcases hg : getBucket st (m0.w * m0.h * 2) with _ | bst
    · rw [hg] at h
      simp at h
    · rw [hg] at h
      simp only [Option.some_bind] at h
      rcases hs : scanList q.weighting (m0.w * m0.h * 2) fuel
          (allPixels (m0 :: rest) m0.w m0.h) (bst.1, q.reserveTransparent)
        with _ | tr
      · rw [hs] at h
        simp at h
      · rw [hs] at h
        simp only [Option.map_some', Option.some.injEq, Prod.mk.injEq] at h
        have hrt := scanList_rt q.weighting (m0.w * m0.h * 2) fuel _ _ tr.1 tr.2 (by
          rw [hs])
        obtain ⟨-, hq, -⟩ := h
        rw [← hq]
        refine ⟨?_, rfl, rfl⟩
        rw [hrt]
        simp [anyTransparent]

/-- C10: `QuantizeMultiple`'s histogram pass mutates its receiver: after a
completed scan, `ReserveTransparent` is true exactly when it was true before
or some scanned pixel had alpha 0 (it is set on the first such pixel and
never reset), while `Aggregation` and `Weighting` are unchanged. -/
theorem c10_receiver_mutation (fuel : Nat) (q : MedianCutQuantizer)
    (st : PoolState) (ms : List Img) (bucket : List colorPriority)
    (q' : MedianCutQuantizer) (st' : PoolState)
    (h : buildBucketMultiple fuel q st ms = some (bucket, q', st')) :
    q'.reserveTransparent = (q.reserveTransparent || anyTransparent ms) ∧
      q'.aggregation = q.aggregation ∧ q'.weighting = q.weighting :=
  buildBucketMultiple_mutation fuel q st ms bucket q' st' h

/-- Witness for C10: a single 1×1 frame whose pixel is fully transparent
flips `ReserveTransparent` from `false` to `true`. -/
theorem c10_witness :
    (MedianCutQuantizer.mk .Mode none true).reserveTransparent =
        ((MedianCutQuantizer.mk .Mode none false).reserveTransparent ||
          anyTransparent [⟨1, 1, fun _ _ => ⟨5, 5, 5, 0⟩⟩]) ∧
      (MedianCutQuantizer.mk .Mode none true).aggregation =
        (MedianCutQuantizer.mk .Mode none false).aggregation ∧
      (MedianCutQuantizer.mk .Mode none true).weighting =
        (MedianCutQuantizer.mk .Mode none false).weighting :=
  c10_receiver_mutation 1 ⟨.Mode, none, false⟩ ⟨0, none⟩
    [⟨1, 1, fun _ _ => ⟨5, 5, 5, 0⟩⟩] [] ⟨.Mode, none, true⟩ ⟨2, none⟩ rfl

/-- First frame of the non-termination input: a 1×1 black frame. -/
def imA : Img := ⟨1, 1, fun _ _ => ⟨0, 0, 0, 255⟩⟩

/-- Second frame of the non-termination input: a 1×1 frame of color
`(0,0,1)`. -/
def imB : Img := ⟨1, 1, fun _ _ => ⟨0, 0, 1, 255⟩⟩

/-- Third frame of the non-termination input: a 1×1 frame of color
`(0,0,2)`. -/
def imC : Img := ⟨1, 1, fun _ _ => ⟨0, 0, 2, 255⟩⟩

lemma probe_stuck (s1 s2 : colorPriority) (c : Rgba) (h1 : s1.p ≠ 0)
    (h2 : s2.p ≠ 0) (hc1 : s1.rgba ≠ c) (hc2 : s2.rgba ≠ c) :
    ∀ (fuel idx i prio : Nat), probeInsert fuel [s1, s2] 2 idx i prio c = none := by
  intro fuel
  induction fuel with
  | zero => intro idx i prio; rfl
  | succ n ih =>
    intro idx i prio
    simp only [probeInsert]
    rcases Nat.mod_two_eq_zero_or_one idx with hm | hm
    · rw [hm]
      simp only [List.getD_cons_zero]
      rw [if_neg]
      · exact ih _ _ _
      · push_neg
        exact ⟨h1, hc1⟩
    · rw [hm]
      simp only [List.getD_cons_succ, List.getD_cons_zero]
      rw [if_neg]
      · exact ih _ _ _
      · push_neg
        exact ⟨h2, hc2⟩

/-- C6 is false of the code: on three same-bounds 1×1 frames holding three
distinct opaque colors, the sparse table (two slots, sized from the first
frame alone) fills with two non-matching colors and the probe loop for the
third color never reaches an empty or matching slot, so `buildBucketMultiple`
diverges — `none` for every fuel bound and every pool state. -/
theorem c6_probe_diverges (fuel : Nat) (st : PoolState) :
    buildBucketMultiple fuel ⟨.Mode, none, false⟩ st [imA, imB, imC] = none := by
  have hsz : imA.w * imA.h * 2 = 2 := rfl
  simp only [buildBucketMultiple, hsz]
  rcases hg : getBucket st 2 with _ | bst
  · rfl
  · obtain ⟨htbl, -, -⟩ := getBucket_some st 2 bst.1 bst.2 (by rw [hg])
    simp only [Option.some_bind]
    have hpix : allPixels [imA, imB, imC] imA.w imA.h =
        [(imA, 0, 0), (imB, 0, 0), (imC, 0, 0)] := by rfl
    rw [hpix, htbl]
    rcases fuel with _ | n
    · rfl
    · have h1 : scanPixel none 2 (n + 1) imA 0 0
          (List.replicate 2 zeroSample, false) =
          some ([⟨1, ⟨0, 0, 0, 255⟩⟩, zeroSample], false) := by
        simp [scanPixel, probeInsert, colorAt, colorIndex, imA, zeroSample,
          List.replicate]
      have h2 : scanPixel none 2 (n + 1) imB 0 0
          ([⟨1, ⟨0, 0, 0, 255⟩⟩, zeroSample], false) =
          some ([⟨1, ⟨0, 0, 0, 255⟩⟩, ⟨1, ⟨0, 0, 1, 255⟩⟩], false) := by
        simp [scanPixel, probeInsert, colorAt, colorIndex, imB, zeroSample]
      have h3 : scanPixel none 2 (n + 1) imC 0 0
          ([⟨1, ⟨0, 0, 0, 255⟩⟩, ⟨1, ⟨0, 0, 1, 255⟩⟩], false) = none := by
        simp only [scanPixel, colorAt, imC]
        rw [if_neg (by decide)]
        rw [if_pos (by decide)]
        rw [probe_stuck ⟨1, ⟨0, 0, 0, 255⟩⟩ ⟨1, ⟨0, 0, 1, 255⟩⟩ ⟨0, 0, 2, 255⟩
          (by decide) (by decide) (by decide) (by decide) (n + 1) _ _ _]
        rfl
      simp only [scanList, h1, Option.some_bind, h2, h3, Option.none_bind,
        Option.map_none']

/-- A 1×1 solid red frame. -/
def imR : Img := ⟨1, 1, fun _ _ => ⟨255, 0, 0, 255⟩⟩

/-- C7 is false of the code: `QuantizeMultiple` returns its scratch bucket to
the pool as `&bucket` (a `*colorBucket`), but `getBucket` asserts the pooled
value to `colorBucket`, so an encode run whose pool carries the entry left
behind by an earlier call panics instead of reproducing the earlier result.
The first conjunct is a run from an empty pool (note its result pool state —
exactly the pointer-typed entry used in the second conjunct); the second is
the same input on the carried-over pool state, which produces no result at
all. -/
theorem c7_not_pool_independent :
    encodeGIF 2 ⟨0, none⟩ [imR] 7 =
      some ⟨[⟨255, 0, 0, 255⟩], [[0]], 0, [7],
        ⟨2, some (.ptr [⟨1, ⟨255, 0, 0, 255⟩⟩])⟩⟩ ∧
    encodeGIF 2 ⟨2, some (.ptr [⟨1, ⟨255, 0, 0, 255⟩⟩])⟩ [imR] 7 = none :=
  ⟨rfl, rfl⟩

lemma bucketWeight_set (l : List colorPriority) (j : Nat) (v : colorPriority)
    (hj : j < l.length) :
    bucketWeight (l.set j v) + (l.getD j zeroSample).p = bucketWeight l + v.p := by
  induction l generalizing j with
  | nil => simp at hj
  | cons s rest ih =>
    rcases j with _ | j
    · simp [bucketWeight]
      omega
    · have hj' : j < rest.length := by simpa using hj
      have := ih j hj'
      simp only [List.set_cons_succ, bucketWeight, List.map_cons, List.sum_cons,
        List.getD_cons_succ] at this ⊢
      omega

lemma probeInsert_length : ∀ (fuel : Nat) (tbl : List colorPriority)
    (size idx i prio : Nat) (c : Rgba) (tbl' : List colorPriority),
    probeInsert fuel tbl size idx i prio c = some tbl' → tbl'.length = tbl.length
  | 0, _, _, _, _, _, _, _, h => by simp [probeInsert] at h
  | fuel + 1, tbl, size, idx, i, prio, c, tbl', h => by
    simp only [probeInsert] at h
    split at h
    · simp only [Option.some.injEq] at h
      rw [← h, List.length_set]
    · exact probeInsert_length fuel tbl size _ _ prio c tbl' h

lemma probeInsert_weight : ∀ (fuel : Nat) (tbl : List colorPriority)
    (size idx i prio : Nat) (c : Rgba) (tbl' : List colorPriority),
    probeInsert fuel tbl size idx i prio c = some tbl' → tbl.length = size →
    0 < size → bucketWeight tbl' = bucketWeight tbl + prio
  | 0, _, _, _, _, _, _, _, h => by simp [probeInsert] at h
  | fuel + 1, tbl, size, idx, i, prio, c, tbl', h => by
    intro hlen hpos
    simp only [probeInsert] at h
    split at h
    · simp only [Option.some.injEq] at h
      have hj : idx % size < tbl.length := by
        rw [hlen]
        exact Nat.mod_lt idx hpos
      have := bucketWeight_set tbl (idx % size)
        ⟨(tbl.getD (idx % size) zeroSample).p + prio, c⟩ hj
      rw [← h]
      simp only at this
      omega
    · exact probeInsert_weight fuel tbl size _ _ prio c tbl' h hlen hpos

lemma probeInsert_keepP (P : Rgba → Prop) : ∀ (fuel : Nat)
    (tbl : List colorPriority) (size idx i prio : Nat) (c : Rgba)
    (tbl' : List colorPriority),
    probeInsert fuel tbl size idx i prio c = some tbl' → P c →
    (∀ s ∈ tbl, s.p ≠ 0 → P s.rgba) → ∀ s ∈ tbl', s.p ≠ 0 → P s.rgba
  | 0, _, _, _, _, _, _, _, h => by simp [probeInsert] at h
  | fuel + 1, tbl, size, idx, i, prio, c, tbl', h => by
    intro hc htbl
    simp only [probeInsert] at h
    split at h
    · simp only [Option.some.injEq] at h
      intro s hs hp
      rcases List.mem_or_eq_of_mem_set (h ▸ hs) with hmem | hv
      · exact htbl s hmem hp
      · rw [hv]
        exact hc
    · exact probeInsert_keepP P fuel tbl size _ _ prio c tbl' h hc htbl

/-- The number of opaque pixels in a pixel list. -/
def opaqueCountOf (ps : List (Img × Nat × Nat)) : Nat :=
  ps.countP (fun px => (px.1.pix px.2.1 px.2.2).a != 0)

lemma scanList_weight (fuel size : Nat) :
    ∀ (ps : List (Img × Nat × Nat)) (tbl : List colorPriority) (rt : Bool)
      (tbl' : List colorPriority) (rt' : Bool),
      scanList none size fuel ps (tbl, rt) = some (tbl', rt') →
      tbl.length = size → 0 < size →
      bucketWeight tbl' = bucketWeight tbl + opaqueCountOf ps ∧ tbl'.length = size
  | [], tbl, rt, tbl', rt', h, hlen, _ => by
    simp only [scanList, Option.some.injEq, Prod.mk.injEq] at h
    rw [← h.1, opaqueCountOf]
    simp [hlen]
  | ⟨m, x, y⟩ :: rest, tbl, rt, tbl', rt', h, hlen, hpos => by
    simp only [scanList, scanPixel, colorAt] at h
    by_cases ha : (m.pix x y).a = 0
    · rw [if_pos ha, Option.some_bind] at h
      obtain ⟨hw, hl⟩ := scanList_weight fuel size rest tbl true tbl' rt' h hlen hpos
      have hax : ((m.pix x y).a != 0) = false := by simp [ha]
      refine ⟨?_, hl⟩
      have hcnt : opaqueCountOf ((⟨m, x, y⟩ : Img × Nat × Nat) :: rest) =
          opaqueCountOf rest := by
        simp [opaqueCountOf, List.countP_cons, hax]
      rw [hcnt]
      exact hw
    · rw [if_neg ha, if_pos (by omega)] at h
      rcases hp : probeInsert fuel tbl size (colorIndex (m.pix x y)) 1 1 (m.pix x y)
          with _ | t
      · rw [hp] at h
        simp at h
      · rw [hp, Option.map_some', Option.some_bind] at h
        have hlt : t.length = size := by
          rw [probeInsert_length fuel tbl size _ _ 1 (m.pix x y) t hp, hlen]
        have hwt := probeInsert_weight fuel tbl size _ _ 1 (m.pix x y) t hp hlen hpos
        obtain ⟨hw, hl⟩ := scanList_weight fuel size rest t rt tbl' rt' h hlt hpos
        have hax : ((m.pix x y).a != 0) = true := by simp [ha]
        refine ⟨?_, hl⟩
        have hcnt : opaqueCountOf ((⟨m, x, y⟩ : Img × Nat × Nat) :: rest) =
            opaqueCountOf rest + 1 := by
          simp [opaqueCountOf, List.countP_cons, hax]
        rw [hcnt, hw, hwt]
        omega

lemma scanList_keepP (P : Rgba → Prop) (wfn : Option (Img → Nat → Nat → Nat))
    (fuel size : Nat) :
    ∀ (ps : List (Img × Nat × Nat)) (tbl : List colorPriority) (rt : Bool)
      (tbl' : List colorPriority) (rt' : Bool),
      scanList wfn size fuel ps (tbl, rt) = some (tbl', rt') →
      (∀ px ∈ ps, (px.1.pix px.2.1 px.2.2).a ≠ 0 → P (px.1.pix px.2.1 px.2.2)) →
      (∀ s ∈ tbl, s.p ≠ 0 → P s.rgba) →
      ∀ s ∈ tbl', s.p ≠ 0 → P s.rgba
  | [], tbl, rt, tbl', rt', h, _, htbl => by
    simp only [scanList, Option.some.injEq, Prod.mk.injEq] at h
    rw [← h.1]
    exact htbl
  | ⟨m, x, y⟩ :: rest, tbl, rt, tbl', rt', h, hps, htbl => by
    simp only [scanList, scanPixel, colorAt] at h
    generalize hpr : (match wfn with | none => 1 | some f => f m x y) = prio at h
    have hrest : ∀ px ∈ rest, (px.1.pix px.2.1 px.2.2).a ≠ 0 →
        P (px.1.pix px.2.1 px.2.2) :=
      fun px hpx => hps px (List.mem_cons_of_mem _ hpx)
    by_cases ha : (m.pix x y).a = 0
    · rw [if_pos ha, Option.some_bind] at h
      exact scanList_keepP P wfn fuel size rest tbl true tbl' rt' h hrest htbl
    · rw [if_neg ha] at h
      split at h
      · rcases hp : probeInsert fuel tbl size (colorIndex (m.pix x y)) 1 prio (m.pix x y)
            with _ | t
        · rw [hp] at h
          simp at h
        · rw [hp, Option.map_some', Option.some_bind] at h
          have hP : P (m.pix x y) := hps ⟨m, x, y⟩ (List.mem_cons_self _ _) ha
          exact scanList_keepP P wfn fuel size rest t rt tbl' rt' h hrest
            (probeInsert_keepP P fuel tbl size _ _ prio (m.pix x y) t hp hP htbl)
      · rw [Option.some_bind] at h
        exact scanList_keepP P wfn fuel size rest tbl rt tbl' rt' h hrest htbl

lemma bucketWeight_filter (l : List colorPriority) :
    bucketWeight (l.filter (fun s => s.p != 0)) = bucketWeight l := by
  induction l with
  | nil => rfl
  | cons s rest ih =>
    by_cases hp : s.p = 0
    · rw [List.filter_cons_of_neg (by simp [hp])]
      simp only [bucketWeight, List.map_cons, List.sum_cons] at ih ⊢
      omega
    · rw [List.filter_cons_of_pos (by simp [hp])]
      simp only [bucketWeight, List.map_cons, List.sum_cons] at ih ⊢
      omega

lemma bucketWeight_replicate_zero (n : Nat) :
    bucketWeight (List.replicate n zeroSample) = 0 := by
  simp [bucketWeight, zeroSample, List.map_replicate]

lemma filter_replicate_zero (n : Nat) :
    (List.replicate n zeroSample).filter (fun s => s.p != 0) = [] := by
  rw [List.filter_eq_nil_iff]
  intro s hs
  rw [List.eq_of_mem_replicate hs]
  simp [zeroSample]

lemma pixelsOf_eq_nil (w h : Nat) (hwh : w * h = 0) : pixelsOf w h = [] := by
  rcases Nat.mul_eq_zero.mp hwh with hw | hh
  · subst hw
    simp [pixelsOf]
  · subst hh
    simp [pixelsOf]

lemma allPixels_eq_nil (ms : List Img) (w h : Nat) (hwh : w * h = 0) :
    allPixels ms w h = [] := by
  simp [allPixels, pixelsOf_eq_nil w h hwh]

/-- The number of opaque pixels scanned by `buildBucketMultiple`: all frames,
walked over the first frame's bounds. -/
def opaqueScanCount (ms : List Img) : Nat :=
  match ms with
  | [] => 0
  | m0 :: _ => opaqueCountOf (allPixels ms m0.w m0.h)

/-- C5: with the default weighting, every alpha-0 pixel is excluded from the
histogram (every stored sample is opaque) and the compacted bucket's total
weight equals exactly the number of opaque pixels scanned. -/
theorem c5_weight_eq_opaque_count (fuel : Nat) (q : MedianCutQuantizer)
    (st : PoolState) (ms : List Img) (bucket : List colorPriority)
    (q' : MedianCutQuantizer) (st' : PoolState)
    (hwf : q.weighting = none)
    (h : buildBucketMultiple fuel q st ms = some (bucket, q', st')) :
    bucketWeight bucket = opaqueScanCount ms ∧ ∀ s ∈ bucket, s.rgba.a ≠ 0 := by
  rcases ms with _ | ⟨m0, rest⟩
  · simp only [buildBucketMultiple, Option.some.injEq, Prod.mk.injEq] at h
    obtain ⟨hb, -, -⟩ := h
    rw [← hb]
    exact ⟨rfl, by simp⟩
  · simp only [buildBucketMultiple] at h
    rcases hg : getBucket st (m0.w * m0.h * 2) with _ | bst
    · rw [hg] at h
      simp at h
    · rw [hg] at h
      simp only [Option.some_bind] at h
      obtain ⟨htbl, -, -⟩ := getBucket_some st _ bst.1 bst.2 (by rw [hg])
      rcases hs : scanList q.weighting (m0.w * m0.h * 2) fuel
          (allPixels (m0 :: rest) m0.w m0.h) (bst.1, q.reserveTransparent)
        with _ | tr
      · rw [hs] at h
        simp at h
      · rw [hs] at h
        simp only [Option.map_some', Option.some.injEq, Prod.mk.injEq] at h
        obtain ⟨hb, -, -⟩ := h
        rcases Nat.eq_zero_or_pos (m0.w * m0.h) with hz | hpos
        · rw [allPixels_eq_nil _ _ _ hz] at hs
          simp only [scanList, Option.some.injEq, Prod.ext_iff] at hs
          rw [← hb, ← hs.1, htbl, filter_replicate_zero]
          refine ⟨?_, by simp⟩
          rw [opaqueScanCount, allPixels_eq_nil _ _ _ hz]
          rfl
        · have hlen : bst.1.length = m0.w * m0.h * 2 := by
            rw [htbl, List.length_replicate]
          have hspos : 0 < m0.w * m0.h * 2 := by omega
          rw [hwf] at hs
          obtain ⟨hwsum, -⟩ := scanList_weight fuel (m0.w * m0.h * 2)
            (allPixels (m0 :: rest) m0.w m0.h) bst.1 q.reserveTransparent
            tr.1 tr.2 (by rw [hs]) hlen hspos
          constructor
          · rw [← hb, bucketWeight_filter, hwsum, htbl,
              bucketWeight_replicate_zero, opaqueScanCount]
            omega
          · intro s hsmem
            have hmem : s ∈ tr.1 := by
              rw [← hb] at hsmem
              exact List.mem_of_mem_filter hsmem
            refine scanList_keepP (fun c => c.a ≠ 0) none fuel (m0.w * m0.h * 2)
              (allPixels (m0 :: rest) m0.w m0.h) bst.1 q.reserveTransparent
              tr.1 tr.2 (by rw [hs]) (fun px _ hpx => hpx) ?_ s hmem ?_
            · intro t htm
              rw [htbl] at htm
              rw [List.eq_of_mem_replicate htm]
              intro hfalse
              exact absurd rfl hfalse
            · rw [← hb] at hsmem
              have := List.of_mem_filter hsmem
              simpa using this

/-- Witness for C5: one 1×1 solid red frame, default weighting. -/
theorem c5_witness :
    (MedianCutQuantizer.mk .Mode none false).weighting = none ∧
      (bucketWeight [⟨1, ⟨255, 0, 0, 255⟩⟩] = opaqueScanCount [imR] ∧
        ∀ s ∈ [(⟨1, ⟨255, 0, 0, 255⟩⟩ : colorPriority)], s.rgba.a ≠ 0) :=
  ⟨rfl,
    c5_weight_eq_opaque_count 1 ⟨.Mode, none, false⟩ ⟨0, none⟩ [imR]
      [⟨1, ⟨255, 0, 0, 255⟩⟩] ⟨.Mode, none, false⟩ ⟨2, none⟩ rfl rfl⟩

lemma sortByChannel_perm (f : Rgba → Nat) (l : colorBucket) :
    (sortByChannel f l).Perm l :=
  List.mergeSort_perm l _

lemma foldl_choice (cost : Nat → Nat) (P : Nat → Prop) :
    ∀ (js : List Nat) (b : Nat), P b → (∀ j ∈ js, P (j + 1)) →
      P (js.foldl (fun best j => if cost (j + 1) < cost best then j + 1 else best) b)
  | [], b, hb, _ => hb
  | j :: rest, b, hb, hj => by
    simp only [List.foldl_cons]
    split
    · exact foldl_choice cost P rest (j + 1) (hj j (List.mem_cons_self _ _))
        (fun i hi => hj i (List.mem_cons_of_mem _ hi))
    · exact foldl_choice cost P rest b hb
        (fun i hi => hj i (List.mem_cons_of_mem _ hi))

lemma splitIndex_bounds (l : colorBucket) (h2 : 2 ≤ l.length) :
    1 ≤ splitIndex l ∧ splitIndex l ≤ l.length - 1 := by
  unfold splitIndex
  refine foldl_choice (splitCost l) (fun i => 1 ≤ i ∧ i ≤ l.length - 1)
    (List.range (l.length - 1)) 1 ⟨Nat.le_refl 1, by omega⟩ ?_
  intro j hj
  have := List.mem_range.mp hj
  omega

lemma partitionBucket_spec (l : colorBucket) (h2 : 2 ≤ l.length) :
    (partitionBucket l).1 ≠ [] ∧ (partitionBucket l).2 ≠ [] ∧
      ((partitionBucket l).1 ++ (partitionBucket l).2).Perm l := by
  unfold partitionBucket
  set s := sortByChannel (widestChannel l) l with hsdef
  have hsp : s.Perm l := sortByChannel_perm _ _
  have hsl : s.length = l.length := hsp.length_eq
  obtain ⟨hi1, hi2⟩ := splitIndex_bounds s (by omega)
  refine ⟨?_, ?_, ?_⟩
  · apply List.ne_nil_of_length_pos
    rw [List.length_take]
    omega
  · apply List.ne_nil_of_length_pos
    rw [List.length_drop]
    omega
  · rw [List.take_append_drop]
    exact hsp

lemma bucketizeAux_flatten_perm : ∀ (fuel : Nat) (bkts : List colorBucket)
    (num nc : Nat) (out : List colorBucket),
    bucketizeAux fuel bkts num nc = some out → out.flatten.Perm bkts.flatten
  | 0, _, _, _, _, h => by simp [bucketizeAux] at h
  | fuel + 1, [], num, nc, out, h => by
    rw [bucketizeAux] at h
    split at h
    · simp at h
    · simp only [Option.some.injEq] at h
      rw [← h]
  | fuel + 1, b :: rest, num, nc, out, h => by
    rw [bucketizeAux] at h
    split at h
    · split at h
      · have := bucketizeAux_flatten_perm fuel (rest ++ [b]) num nc out h
        refine this.trans ?_
        rw [List.flatten_append, List.flatten_cons]
        refine List.Perm.trans ?_ List.perm_append_comm
        simp
      · split at h
        · have := bucketizeAux_flatten_perm fuel (rest ++ [b.take 1, b.drop 1]) num nc out h
          refine this.trans ?_
          rw [List.flatten_append]
          have hx : ([b.take 1, b.drop 1] : List colorBucket).flatten = b := by
            simp only [List.flatten_cons, List.flatten_nil, List.append_nil]
            exact List.take_append_drop 1 b
          rw [hx]
          exact List.perm_append_comm
        · have := bucketizeAux_flatten_perm fuel
            (rest ++ [(partitionBucket b).1, (partitionBucket b).2]) num nc out h
          refine this.trans ?_
          rw [List.flatten_append, List.flatten_cons]
          rename_i hcond hlt2 hne2
          have hb2 : 2 ≤ b.length := by omega
          obtain ⟨-, -, hperm⟩ := partitionBucket_spec b hb2
          refine List.Perm.trans ?_ (@List.perm_append_comm colorPriority rest.flatten b)
          refine List.Perm.append_left rest.flatten ?_
          simpa using hperm
    · simp only [Option.some.injEq] at h
      rw [← h]

lemma bucketizeAux_len_le : ∀ (fuel : Nat) (bkts : List colorBucket)
    (num nc : Nat) (out : List colorBucket),
    bucketizeAux fuel bkts num nc = some out → bkts.length ≤ num →
    out.length ≤ num
  | 0, _, _, _, _, h => by simp [bucketizeAux] at h
  | fuel + 1, [], num, nc, out, h => by
    intro hle
    rw [bucketizeAux] at h
    split at h
    · simp at h
    · simp only [Option.some.injEq] at h
      rw [← h]
      exact hle
  | fuel + 1, b :: rest, num, nc, out, h => by
    intro hle
    rw [bucketizeAux] at h
    split at h
    · rename_i hcond
      split at h
      · refine bucketizeAux_len_le fuel (rest ++ [b]) num nc out h ?_
        simp only [List.length_cons] at hcond hle ⊢
        simp
        omega
      · split at h
        · refine bucketizeAux_len_le fuel (rest ++ [b.take 1, b.drop 1]) num nc out h ?_
          simp only [List.length_cons] at hcond
          simp
          omega
        · refine bucketizeAux_len_le fuel
            (rest ++ [(partitionBucket b).1, (partitionBucket b).2]) num nc out h ?_
          simp only [List.length_cons] at hcond
          simp
          omega
    · simp only [Option.some.injEq] at h
      rw [← h]
      exact hle

lemma bucketizeAux_exit : ∀ (fuel : Nat) (bkts : List colorBucket)
    (num nc : Nat) (out : List colorBucket),
    bucketizeAux fuel bkts num nc = some out →
    ¬(out.length < num ∧ out.length < nc)
  | 0, _, _, _, _, h => by simp [bucketizeAux] at h
  | fuel + 1, [], num, nc, out, h => by
    rw [bucketizeAux] at h
    split at h
    · simp at h
    · rename_i hcond
      simp only [Option.some.injEq] at h
      rw [← h]
      exact hcond
  | fuel + 1, b :: rest, num, nc, out, h => by
    rw [bucketizeAux] at h
    split at h
    · split at h
      · exact bucketizeAux_exit fuel _ num nc out h
      · split at h
        · exact bucketizeAux_exit fuel _ num nc out h
        · exact bucketizeAux_exit fuel _ num nc out h
    · rename_i hcond
      simp only [Option.some.injEq] at h
      rw [← h]
      exact hcond

lemma bucketizeAux_nonempty : ∀ (fuel : Nat) (bkts : List colorBucket)
    (num nc : Nat) (out : List colorBucket),
    bucketizeAux fuel bkts num nc = some out → (∀ b ∈ bkts, b ≠ []) →
    ∀ b ∈ out, b ≠ []
  | 0, _, _, _, _, h => by simp [bucketizeAux] at h
  | fuel + 1, [], num, nc, out, h => by
    intro hne
    rw [bucketizeAux] at h
    split at h
    · simp at h
    · simp only [Option.some.injEq] at h
      rw [← h]
      exact hne
  | fuel + 1, b :: rest, num, nc, out, h => by
    intro hne
    rw [bucketizeAux] at h
    split at h
    · have hrest : ∀ x ∈ rest, x ≠ [] := fun x hx => hne x (List.mem_cons_of_mem _ hx)
      split at h
      · refine bucketizeAux_nonempty fuel (rest ++ [b]) num nc out h ?_
        intro x hx
        rcases List.mem_append.mp hx with hx | hx
        · exact hrest x hx
        · rw [List.mem_singleton.mp hx]
          exact hne b (List.mem_cons_self _ _)
      · rename_i hcond hlt2
        split at h
        · rename_i hlen2
          refine bucketizeAux_nonempty fuel (rest ++ [b.take 1, b.drop 1]) num nc out h ?_
          intro x hx
          rcases List.mem_append.mp hx with hx | hx
          · exact hrest x hx
          · rcases List.mem_cons.mp hx with hx | hx
            · rw [hx]
              apply List.ne_nil_of_length_pos
              rw [List.length_take]
              omega
            · rw [List.mem_singleton.mp hx]
              apply List.ne_nil_of_length_pos
              rw [List.length_drop]
              omega
        · rename_i hne2
          refine bucketizeAux_nonempty fuel
            (rest ++ [(partitionBucket b).1, (partitionBucket b).2]) num nc out h ?_
          intro x hx
          have hb2 : 2 ≤ b.length := by omega
          obtain ⟨hp1, hp2, -⟩ := partitionBucket_spec b hb2
          rcases List.mem_append.mp hx with hx | hx
          · exact hrest x hx
          · rcases List.mem_cons.mp hx with hx | hx
            · rw [hx]
              exact hp1
            · rw [List.mem_singleton.mp hx]
              exact hp2
    · simp only [Option.some.injEq] at h
      rw [← h]
      exact hne

/-- Total sample weight over a list of buckets. -/
def bucketsWeight (bs : List colorBucket) : Nat := (bs.map bucketWeight).sum

lemma bucketWeight_append (l1 l2 : colorBucket) :
    bucketWeight (l1 ++ l2) = bucketWeight l1 + bucketWeight l2 := by
  simp [bucketWeight]

lemma bucketsWeight_eq_flatten (bs : List colorBucket) :
    bucketsWeight bs = bucketWeight bs.flatten := by
  induction bs with
  | nil => rfl
  | cons b rest ih =>
    rw [List.flatten_cons, bucketWeight_append, ← ih]
    simp [bucketsWeight]

lemma bucketWeight_perm (l1 l2 : colorBucket) (h : l1.Perm l2) :
    bucketWeight l1 = bucketWeight l2 := by
  unfold bucketWeight
  exact (h.map (fun s => s.p)).sum_eq

/-- C3 as stated is false: with target count `0` and a non-empty input
bucket, `bucketize` returns no buckets at all (`return nil`), so the entire
input weight is dropped rather than conserved. -/
theorem c3_counterexample :
    bucketize 1 [⟨1, ⟨255, 0, 0, 255⟩⟩] 0 = some [] ∧
      bucketsWeight [] ≠ bucketWeight [⟨1, ⟨255, 0, 0, 255⟩⟩] := by
  constructor
  · rfl
  · decide

/-- C3 (amended to a nonzero target count): whenever `bucketize` completes
with target count at least 1, the total sample weight over the returned
buckets equals the total weight of the input bucket — samples are only
regrouped, never created, dropped or duplicated. -/
theorem c3_weight_conservation (fuel num : Nat) (colors : colorBucket)
    (bs : List colorBucket) (hnum : 1 ≤ num)
    (h : bucketize fuel colors num = some bs) :
    bucketsWeight bs = bucketWeight colors := by
  unfold bucketize at h
  split at h
  · rename_i hcond
    simp only [Option.some.injEq] at h
    rcases hcond with hc | hn
    · rw [← h, List.length_eq_zero.mp hc]
      rfl
    · omega
  · have hperm := bucketizeAux_flatten_perm fuel [colors] num colors.length bs h
    rw [bucketsWeight_eq_flatten]
    refine bucketWeight_perm _ _ (hperm.trans ?_)
    simp

/-- Witness for C3 (amended): two distinct colors split into two buckets at
target 2 under 2 steps of fuel. -/
theorem c3_witness :
    1 ≤ 2 ∧
      bucketsWeight [[⟨1, ⟨255, 0, 0, 255⟩⟩], [⟨3, ⟨0, 0, 1, 255⟩⟩]] =
        bucketWeight [⟨1, ⟨255, 0, 0, 255⟩⟩, ⟨3, ⟨0, 0, 1, 255⟩⟩] :=
  ⟨by decide,
    c3_weight_conservation 2 2 [⟨1, ⟨255, 0, 0, 255⟩⟩, ⟨3, ⟨0, 0, 1, 255⟩⟩]
      [[⟨1, ⟨255, 0, 0, 255⟩⟩], [⟨3, ⟨0, 0, 1, 255⟩⟩]] (by decide) rfl⟩

/-- C4: on a non-empty input of pairwise-distinct colors and target `K ≥ 1`,
a completed `bucketize` returns at most `K` buckets, at least
`min(K, distinct-color count)` buckets, and no empty bucket. -/
theorem c4_bucket_count (fuel num : Nat) (colors : colorBucket)
    (bs : List colorBucket) (hne : colors ≠ []) (hnum : 1 ≤ num)
    (hnd : (colors.map (fun s => s.rgba)).Nodup)
    (h : bucketize fuel colors num = some bs) :
    bs.length ≤ num ∧ min num colors.length ≤ bs.length ∧ ∀ b ∈ bs, b ≠ [] := by
  unfold bucketize at h
  split at h
  · rename_i hcond
    rcases hcond with hc | hn
    · exact absurd (List.length_eq_zero.mp hc) hne
    · omega
  · refine ⟨bucketizeAux_len_le fuel [colors] num colors.length bs h (by simpa), ?_, ?_⟩
    · have := bucketizeAux_exit fuel [colors] num colors.length bs h
      omega
    · refine bucketizeAux_nonempty fuel [colors] num colors.length bs h ?_
      intro b hb
      rw [List.mem_singleton.mp hb]
      exact hne

/-- Witness for C4: two distinct colors, target 2. -/
theorem c4_witness :
    ([⟨1, ⟨255, 0, 0, 255⟩⟩, ⟨3, ⟨0, 0, 1, 255⟩⟩] : colorBucket) ≠ [] ∧ 1 ≤ 2 ∧
      (([⟨1, ⟨255, 0, 0, 255⟩⟩, ⟨3, ⟨0, 0, 1, 255⟩⟩] : colorBucket).map
        (fun s => s.rgba)).Nodup ∧
      (([[⟨1, ⟨255, 0, 0, 255⟩⟩], [⟨3, ⟨0, 0, 1, 255⟩⟩]] : List colorBucket).length ≤ 2 ∧
        min 2 ([⟨1, ⟨255, 0, 0, 255⟩⟩, ⟨3, ⟨0, 0, 1, 255⟩⟩] : colorBucket).length ≤
          ([[⟨1, ⟨255, 0, 0, 255⟩⟩], [⟨3, ⟨0, 0, 1, 255⟩⟩]] : List colorBucket).length ∧
        ∀ b ∈ ([[⟨1, ⟨255, 0, 0, 255⟩⟩], [⟨3, ⟨0, 0, 1, 255⟩⟩]] : List colorBucket), b ≠ []) :=
  ⟨by decide, by decide, by decide,
    c4_bucket_count 2 2 [⟨1, ⟨255, 0, 0, 255⟩⟩, ⟨3, ⟨0, 0, 1, 255⟩⟩]
      [[⟨1, ⟨255, 0, 0, 255⟩⟩], [⟨3, ⟨0, 0, 1, 255⟩⟩]] (by decide) (by decide)
      (by decide) rfl⟩

/-- `1` when the cache already resolves key `k`, else `0`. -/
def cacheHit (cache : IdCache) (k : Nat) : Nat :=
  if (cache.lookup k).isSome then 1 else 0

lemma cacheHit_le_one (cache : IdCache) (k : Nat) : cacheHit cache k ≤ 1 := by
  unfold cacheHit
  split <;> omega

lemma cacheHit_none (cache : IdCache) (k : Nat) (h : cache.lookup k = none) :
    cacheHit cache k = 0 := by
  unfold cacheHit
  rw [h]
  rfl

lemma cacheHit_cons_self (cache : IdCache) (k v : Nat) :
    cacheHit ((k, v) :: cache) k = 1 := by
  unfold cacheHit
  simp [List.lookup]

lemma cacheHit_cons_ne (cache : IdCache) (k k' v : Nat) (h : k' ≠ k) :
    cacheHit ((k', v) :: cache) k = cacheHit cache k := by
  unfold cacheHit
  have hb : (k == k') = false := by simpa using Ne.symm h
  simp only [List.lookup, hb]

lemma emitPixList_search_count (k : Nat) :
    ∀ (ps : List (Nat × Nat)) (m : Img) (rt : Bool) (tid : Nat) (pal : List Rgba)
      (cache : IdCache),
      (emitPixList ps m rt tid pal cache).2.2.count k + cacheHit cache k ≤
        cacheHit (emitPixList ps m rt tid pal cache).2.1 k
  | [], m, rt, tid, pal, cache => by
    simp [emitPixList]
  | xy :: rest, m, rt, tid, pal, cache => by
    simp only [emitPixList]
    by_cases htr : rt = true ∧ (m.pix xy.1 xy.2).a = 0
    · simp only [resolvePix, if_pos htr]
      simpa using emitPixList_search_count k rest m rt tid pal cache
    · simp only [resolvePix, if_neg htr]
      rcases hlk : cache.lookup (cidOf (m.pix xy.1 xy.2)) with _ | v
      · simp only [hlk]
        have ih := emitPixList_search_count k rest m rt tid pal
          ((cidOf (m.pix xy.1 xy.2), palIndex pal (m.pix xy.1 xy.2) % 256) :: cache)
        by_cases hck : cidOf (m.pix xy.1 xy.2) = k
        · rw [hck] at hlk
          have h0 := cacheHit_none cache k hlk
          have h1 : cacheHit ((cidOf (m.pix xy.1 xy.2),
              palIndex pal (m.pix xy.1 xy.2) % 256) :: cache) k = 1 := by
            rw [hck]
            exact cacheHit_cons_self cache k _
          rw [h1] at ih
          have h2 : List.count k [cidOf (m.pix xy.1 xy.2)] = 1 := by
            rw [hck]
            simp
          simp only [eq_self_iff_true, if_true, List.count_append, h0, Nat.add_zero, h2]
          omega
        · have h1 : cacheHit ((cidOf (m.pix xy.1 xy.2),
              palIndex pal (m.pix xy.1 xy.2) % 256) :: cache) k = cacheHit cache k :=
            cacheHit_cons_ne cache k _ _ hck
          rw [h1] at ih
          have h2 : List.count k [cidOf (m.pix xy.1 xy.2)] = 0 := by
            rw [List.count_singleton']
            simp [hck]
          simp only [eq_self_iff_true, if_true, List.count_append, h2, Nat.zero_add]
          omega
      · simp only [hlk]
        simpa using emitPixList_search_count k rest m rt tid pal cache

lemma emitFrames_search_count (k : Nat) :
    ∀ (ims : List Img) (rt : Bool) (tid : Nat) (pal : List Rgba) (cache : IdCache),
      (emitFrames ims rt tid pal cache).2.2.count k + cacheHit cache k ≤
        cacheHit (emitFrames ims rt tid pal cache).2.1 k
  | [], rt, tid, pal, cache => by
    simp [emitFrames]
  | m :: rest, rt, tid, pal, cache => by
    simp only [emitFrames, List.count_append]
    have h1 := emitPixList_search_count k (pixelsOf m.w m.h) m rt tid pal cache
    have h2 := emitFrames_search_count k rest rt tid pal
      (emitPixList (pixelsOf m.w m.h) m rt tid pal cache).2.1
    omega

/-- C8: within one encode session — the frame-emission pass started on the
session-fresh empty cache, exactly as `EncodeGIF` invokes it — each distinct
truncated color key triggers at most one palette search across all pixels of
all frames; every later pixel with the same key is resolved from the
cache. -/
theorem c8_one_search_per_key (ims : List Img) (rt : Bool) (tid : Nat)
    (pal : List Rgba) (k : Nat) :
    (emitFrames ims rt tid pal []).2.2.count k ≤ 1 := by
  have h1 := emitFrames_search_count k ims rt tid pal []
  have h2 := cacheHit_le_one (emitFrames ims rt tid pal []).2.1 k
  omega

/-- The all-zero placeholder image used as a `getD` default. -/
def imgDefault : Img := ⟨0, 0, fun _ _ => ⟨0, 0, 0, 0⟩⟩

lemma mem_pixelsOf (w h x y : Nat) (hx : x < w) (hy : y < h) :
    (x, y) ∈ pixelsOf w h := by
  unfold pixelsOf
  rw [List.mem_flatMap]
  exact ⟨y, List.mem_range.mpr hy, List.mem_map.mpr ⟨x, List.mem_range.mpr hx, rfl⟩⟩

lemma mem_allPixels (ms : List Img) (w h x y : Nat) (mi : Img) (hmi : mi ∈ ms)
    (hx : x < w) (hy : y < h) : (mi, x, y) ∈ allPixels ms w h := by
  unfold allPixels
  rw [List.mem_flatMap]
  exact ⟨mi, hmi, List.mem_map.mpr ⟨(x, y), mem_pixelsOf w h x y hx hy, rfl⟩⟩

lemma pixelsOf_length (w h : Nat) : (pixelsOf w h).length = w * h := by
  unfold pixelsOf
  rw [List.length_flatMap]
  simp only [Function.comp_def, List.length_map, List.length_range]
  rw [List.map_const', List.length_range, List.sum_replicate, smul_eq_mul,
    Nat.mul_comm]

lemma pixelsOf_getD (w : Nat) : ∀ (h x y : Nat), x < w → y < h →
    (pixelsOf w h).getD (y * w + x) (0, 0) = (x, y) := by
  intro h
  induction h with
  | zero => intro x y _ hy; omega
  | succ hh ih =>
    intro x y hx hy
    have hsplit : pixelsOf w (hh + 1) =
        pixelsOf w hh ++ (List.range w).map (fun x => (x, hh)) := by
      unfold pixelsOf
      rw [List.range_succ, List.flatMap_append]
      simp
    rw [hsplit]
    rcases Nat.lt_or_ge y hh with hylt | hyge
    · rw [List.getD_append]
      · exact ih x y hx hylt
      · rw [pixelsOf_length]
        calc y * w + x < y * w + w := by omega
          _ = (y + 1) * w := by rw [Nat.succ_mul]
          _ ≤ hh * w := Nat.mul_le_mul_right w hylt
          _ = w * hh := Nat.mul_comm _ _
    · have hy' : y = hh := by omega
      subst hy'
      have hlen : (pixelsOf w y).length = y * w := by
        rw [pixelsOf_length, Nat.mul_comm]
      rw [List.getD_eq_getElem?_getD, List.getElem?_append_right (by omega), hlen]
      have hidx : y * w + x - y * w = x := by omega
      rw [hidx]
      have hxlt : x < ((List.range w).map (fun x => (x, y))).length := by
        rw [List.length_map, List.length_range]
        exact hx
      rw [List.getElem?_eq_getElem hxlt]
      simp

lemma emitPixList_length (m : Img) (rt : Bool) (tid : Nat) (pal : List Rgba) :
    ∀ (ps : List (Nat × Nat)) (cache : IdCache),
      (emitPixList ps m rt tid pal cache).1.length = ps.length
  | [], cache => rfl
  | xy :: rest, cache => by
    simp only [emitPixList, List.length_cons]
    rw [emitPixList_length m rt tid pal rest _]

lemma emitPixList_transparent (m : Img) (tid : Nat) (pal : List Rgba) :
    ∀ (ps : List (Nat × Nat)) (cache : IdCache) (n : Nat), n < ps.length →
      (m.pix (ps.getD n (0, 0)).1 (ps.getD n (0, 0)).2).a = 0 →
      (emitPixList ps m true tid pal cache).1.getD n (tid + 1) = tid
  | [], cache, n, hn, _ => by simp at hn
  | xy :: rest, cache, n, hn, ha => by
    simp only [emitPixList]
    rcases n with _ | n
    · simp only [List.getD_cons_zero] at ha ⊢
      rw [resolvePix, if_pos ⟨rfl, ha⟩]
    · simp only [List.getD_cons_succ] at ha ⊢
      exact emitPixList_transparent m tid pal rest _ n (by simpa using hn) ha

lemma emitFrames_length (rt : Bool) (tid : Nat) (pal : List Rgba) :
    ∀ (ims : List Img) (cache : IdCache),
      (emitFrames ims rt tid pal cache).1.length = ims.length
  | [], cache => rfl
  | m :: rest, cache => by
    simp only [emitFrames, List.length_cons]
    rw [emitFrames_length rt tid pal rest _]

lemma emitFrames_frame_shape (rt : Bool) (tid : Nat) (pal : List Rgba) :
    ∀ (ims : List Img) (cache : IdCache) (i : Nat), i < ims.length →
      ∃ cache' : IdCache,
        (emitFrames ims rt tid pal cache).1.getD i [] =
          (emitPixList (pixelsOf (ims.getD i imgDefault).w (ims.getD i imgDefault).h)
            (ims.getD i imgDefault) rt tid pal cache').1
  | [], cache, i, hi => by simp at hi
  | m :: rest, cache, i, hi => by
    simp only [emitFrames]
    rcases i with _ | i
    · exact ⟨cache, by simp⟩
    · obtain ⟨cache', hc⟩ := emitFrames_frame_shape rt tid pal rest
        (emitPixList (pixelsOf m.w m.h) m rt tid pal cache).2.1 i (by simpa using hi)
      exact ⟨cache', by simpa using hc⟩

lemma palettize_length (agg : AggregationType) :
    ∀ (buckets : List colorBucket) (p : List Rgba),
      (palettize agg p buckets).length = p.length + buckets.length
  | [], p => by simp [palettize]
  | b :: rest, p => by
    simp only [palettize, List.foldl_cons]
    have := palettize_length agg rest
      (p ++ [match agg with | .Mean => bucketMean b | .Mode => (bestSample b).rgba])
    simp only [palettize] at this
    rw [this]
    simp
    omega

lemma foldl_best_ge (l : List colorPriority) :
    ∀ (acc : colorPriority),
      acc.p ≤ (l.foldl (fun best c => if best.p < c.p then c else best) acc).p ∧
      ∀ s ∈ l, s.p ≤ (l.foldl (fun best c => if best.p < c.p then c else best) acc).p := by
  induction l with
  | nil => intro acc; exact ⟨Nat.le_refl _, by simp⟩
  | cons c rest ih =>
    intro acc
    simp only [List.foldl_cons]
    constructor
    · split
      · rename_i hlt
        exact Nat.le_trans (Nat.le_of_lt hlt) (ih c).1
      · exact (ih acc).1
    · intro s hs
      rcases List.mem_cons.mp hs with hs | hs
      · subst hs
        split
        · exact (ih s).1
        · rename_i hnlt
          exact Nat.le_trans (Nat.le_of_not_lt hnlt) (ih acc).1
      · split
        · exact (ih c).2 s hs
        · exact (ih acc).2 s hs

lemma foldl_best_mem (l : List colorPriority) :
    ∀ (acc : colorPriority),
      l.foldl (fun best c => if best.p < c.p then c else best) acc = acc ∨
      l.foldl (fun best c => if best.p < c.p then c else best) acc ∈ l := by
  induction l with
  | nil => intro acc; exact Or.inl rfl
  | cons c rest ih =>
    intro acc
    simp only [List.foldl_cons]
    split
    · rcases ih c with h | h
      · refine Or.inr ?_
        rw [h]
        exact List.mem_cons_self _ _
      · exact Or.inr (List.mem_cons_of_mem _ h)
    · rcases ih acc with h | h
      · exact Or.inl h
      · exact Or.inr (List.mem_cons_of_mem _ h)

lemma bestSample_mem (b : colorBucket) (s : colorPriority) (hs : s ∈ b)
    (hp : 0 < s.p) : bestSample b ∈ b := by
  unfold bestSample
  rcases foldl_best_mem b zeroSample with h | h
  · exfalso
    have := (foldl_best_ge b zeroSample).2 s hs
    rw [h] at this
    simp [zeroSample] at this
    omega
  · exact h

lemma bucketizeAux_len_le_nc : ∀ (fuel : Nat) (bkts : List colorBucket)
    (num nc : Nat) (out : List colorBucket),
    bucketizeAux fuel bkts num nc = some out → bkts.length ≤ nc →
    out.length ≤ nc
  | 0, _, _, _, _, h => by simp [bucketizeAux] at h
  | fuel + 1, [], num, nc, out, h => by
    intro hle
    rw [bucketizeAux] at h
    split at h
    · simp at h
    · simp only [Option.some.injEq] at h
      rw [← h]
      exact hle
  | fuel + 1, b :: rest, num, nc, out, h => by
    intro hle
    rw [bucketizeAux] at h
    split at h
    · rename_i hcond
      split at h
      · refine bucketizeAux_len_le_nc fuel (rest ++ [b]) num nc out h ?_
        simp only [List.length_cons] at hcond hle ⊢
        simp
        omega
      · split at h
        · refine bucketizeAux_len_le_nc fuel (rest ++ [b.take 1, b.drop 1]) num nc out h ?_
          simp only [List.length_cons] at hcond
          simp
          omega
        · refine bucketizeAux_len_le_nc fuel
            (rest ++ [(partitionBucket b).1, (partitionBucket b).2]) num nc out h ?_
          simp only [List.length_cons] at hcond
          simp
          omega
    · simp only [Option.some.injEq] at h
      rw [← h]
      exact hle

lemma bucketize_len (fuel num : Nat) (colors : colorBucket) (bs : List colorBucket)
    (h : bucketize fuel colors num = some bs) :
    bs.length ≤ num ∧ bs.length ≤ colors.length := by
  unfold bucketize at h
  split at h
  · simp only [Option.some.injEq] at h
    rw [← h]
    simp
  · rename_i hcond
    push_neg at hcond
    constructor
    · exact bucketizeAux_len_le fuel [colors] num colors.length bs h (by simp; omega)
    · refine bucketizeAux_len_le_nc fuel [colors] num colors.length bs h ?_
      simp
      have := hcond.1
      omega

lemma bucketize_mem (fuel num : Nat) (colors : colorBucket) (bs : List colorBucket)
    (h : bucketize fuel colors num = some bs) (b : colorBucket) (hb : b ∈ bs)
    (s : colorPriority) (hs : s ∈ b) : s ∈ colors := by
  unfold bucketize at h
  split at h
  · simp only [Option.some.injEq] at h
    rw [← h] at hb
    simp at hb
  · have hperm := bucketizeAux_flatten_perm fuel [colors] num colors.length bs h
    have hflat : s ∈ bs.flatten := by
      rw [List.mem_flatten]
      exact ⟨b, hb, hs⟩
    have := hperm.mem_iff.mp hflat
    simpa using this

lemma palettize_mode_mem : ∀ (buckets : List colorBucket) (p : List Rgba)
    (x : Rgba), x ∈ palettize .Mode p buckets →
    x ∈ p ∨ ∃ b ∈ buckets, x = (bestSample b).rgba
  | [], p, x, hx => by
    simp only [palettize, List.foldl_nil] at hx
    exact Or.inl hx
  | b :: rest, p, x, hx => by
    simp only [palettize, List.foldl_cons] at hx
    have := palettize_mode_mem rest (p ++ [(bestSample b).rgba]) x (by
      simpa [palettize] using hx)
    rcases this with hmem | ⟨b', hb', hxval⟩
    · rcases List.mem_append.mp hmem with hmem | hmem
      · exact Or.inl hmem
      · exact Or.inr ⟨b, List.mem_cons_self _ _, List.mem_singleton.mp hmem⟩
    · exact Or.inr ⟨b', List.mem_cons_of_mem _ hb', hxval⟩

lemma quantizeSlice_some (fuel : Nat) (q : MedianCutQuantizer) (p : Palette)
    (colors : colorBucket) (p' : Palette)
    (h : quantizeSlice fuel q p colors = some p') :
    (0 ≤ (p.cap : Int) - p.entries.length -
        (if q.reserveTransparent then 1 else 0) ∧
      ∃ bs, bucketize fuel colors
          (((p.cap : Int) - p.entries.length -
            (if q.reserveTransparent then 1 else 0)).toNat) = some bs ∧
        p' = ⟨p.cap, palettize q.aggregation p.entries bs⟩) ∨
    ((p.cap : Int) - p.entries.length -
        (if q.reserveTransparent then 1 else 0) < 0 ∧
      colors.length = 0 ∧ p' = ⟨p.cap, p.entries⟩) := by
  unfold quantizeSlice at h
  by_cases hneg : ((p.cap : Int) - p.entries.length -
      (if q.reserveTransparent then 1 else 0)) < 0
  · rw [if_pos hneg] at h
    split at h
    · rename_i hnil
      simp only [Option.some.injEq] at h
      exact Or.inr ⟨hneg, hnil, h.symm⟩
    · simp at h
  · rw [if_neg hneg] at h
    rcases hb : bucketize fuel colors
        (((p.cap : Int) - p.entries.length -
          (if q.reserveTransparent then 1 else 0)).toNat) with _ | bs
    · rw [hb] at h
      simp at h
    · rw [hb] at h
      simp only [Option.map_some', Option.some.injEq] at h
      exact Or.inl ⟨by omega, bs, rfl, h.symm⟩

lemma quantizeMultiple_some (fuel : Nat) (q : MedianCutQuantizer) (st : PoolState)
    (p : Palette) (ms : List Img) (p' : Palette) (q' : MedianCutQuantizer)
    (st' : PoolState)
    (h : quantizeMultiple fuel q st p ms = some (p', q', st')) :
    ∃ bucket stx, buildBucketMultiple fuel q st ms = some (bucket, q', stx) ∧
      quantizeSlice fuel q' p bucket = some p' := by
  unfold quantizeMultiple at h
  rcases hb : buildBucketMultiple fuel q st ms with _ | bqs
  · rw [hb] at h
    simp at h
  · rw [hb] at h
    simp only [Option.some_bind] at h
    rcases hq : quantizeSlice fuel bqs.2.1 p bqs.1 with _ | p2
    · rw [hq] at h
      simp at h
    · rw [hq] at h
      simp only [Option.map_some', Option.some.injEq, Prod.mk.injEq] at h
      obtain ⟨hp, hqq, -⟩ := h
      refine ⟨bqs.1, bqs.2.2, ?_, ?_⟩
      · rw [← hqq]
      · rw [← hqq, hq, hp]

lemma encodeGIF_some (fuel delay : Nat) (st : PoolState) (m0 : Img)
    (rest : List Img) (out : EncodedGIF)
    (henc : encodeGIF fuel st (m0 :: rest) delay = some out) :
    ∃ p' q' stx, quantizeMultiple fuel ⟨.Mode, none, false⟩ st ⟨256, []⟩
        (m0 :: rest) = some (p', q', stx) ∧
      out.transId = (if q'.reserveTransparent then p'.entries.length % 256 else 0) ∧
      out.palette = (if q'.reserveTransparent then p'.entries ++ [⟨0, 0, 0, 0⟩]
        else p'.entries) ∧
      out.frames = (emitFrames (m0 :: rest) q'.reserveTransparent out.transId
        out.palette []).1 := by
  simp only [encodeGIF] at henc
  rcases hq : quantizeMultiple fuel ⟨.Mode, none, false⟩ st ⟨256, []⟩ (m0 :: rest)
    with _ | pqs
  · rw [hq] at henc
    simp at henc
  · rw [hq] at henc
    simp only [Option.map_some', Option.some.injEq] at henc
    refine ⟨pqs.1, pqs.2.1, pqs.2.2, rfl, ?_, ?_, ?_⟩
    · rw [← henc]
    · rw [← henc]
    · rw [← henc]

lemma bucketize_nonempty (fuel num : Nat) (colors : colorBucket)
    (bs : List colorBucket) (h : bucketize fuel colors num = some bs) :
    ∀ b ∈ bs, b ≠ [] := by
  unfold bucketize at h
  split at h
  · simp only [Option.some.injEq] at h
    rw [← h]
    simp
  · rename_i hcond
    push_neg at hcond
    refine bucketizeAux_nonempty fuel [colors] num colors.length bs h ?_
    intro b hb
    rw [List.mem_singleton.mp hb]
    intro hnil
    rw [hnil] at hcond
    exact absurd rfl hcond.1

lemma buildBucketMultiple_samples (fuel : Nat) (q : MedianCutQuantizer)
    (st : PoolState) (ms : List Img) (bucket : List colorPriority)
    (q' : MedianCutQuantizer) (st' : PoolState)
    (h : buildBucketMultiple fuel q st ms = some (bucket, q', st')) :
    ∀ s ∈ bucket, s.p ≠ 0 ∧ s.rgba.a ≠ 0 := by
  rcases ms with _ | ⟨m0, rest⟩
  · simp only [buildBucketMultiple, Option.some.injEq, Prod.mk.injEq] at h
    obtain ⟨hb, -, -⟩ := h
    rw [← hb]
    simp
  · simp only [buildBucketMultiple] at h
    rcases hg : getBucket st (m0.w * m0.h * 2) with _ | bst
    · rw [hg] at h
      simp at h
    · rw [hg] at h
      simp only [Option.some_bind] at h
      obtain ⟨htbl, -, -⟩ := getBucket_some st _ bst.1 bst.2 (by rw [hg])
      rcases hs : scanList q.weighting (m0.w * m0.h * 2) fuel
          (allPixels (m0 :: rest) m0.w m0.h) (bst.1, q.reserveTransparent)
        with _ | tr
      · rw [hs] at h
        simp at h
      · rw [hs] at h
        simp only [Option.map_some', Option.some.injEq, Prod.mk.injEq] at h
        obtain ⟨hb, -, -⟩ := h
        intro s hsmem
        rw [← hb] at hsmem
        have hp : s.p ≠ 0 := by
          have := List.of_mem_filter hsmem
          simpa using this
        refine ⟨hp, ?_⟩
        refine scanList_keepP (fun c => c.a ≠ 0) q.weighting fuel (m0.w * m0.h * 2)
          (allPixels (m0 :: rest) m0.w m0.h) bst.1 q.reserveTransparent
          tr.1 tr.2 (by rw [hs]) (fun px _ hpx => hpx) ?_ s
          (List.mem_of_mem_filter hsmem) hp
        intro t htm
        rw [htbl] at htm
        rw [List.eq_of_mem_replicate htm]
        intro hfalse
        exact absurd rfl hfalse

lemma pos_lt_area (x y w h : Nat) (hx : x < w) (hy : y < h) :
    y * w + x < w * h := by
  calc y * w + x < y * w + w := by omega
    _ = (y + 1) * w := by rw [Nat.succ_mul]
    _ ≤ h * w := Nat.mul_le_mul_right w hy
    _ = w * h := Nat.mul_comm _ _

/-- C2 (amended to the delay-taking `EncodeGIF`, the variant that tracks
`transId`): when some scanned pixel of some frame is fully transparent, this
encode pass reserves exactly one palette slot for transparency — the final
palette is the quantized entries (all of nonzero alpha) plus exactly one
trailing transparent entry at index `transId` — every alpha-0 pixel of every
frame is emitted with exactly that reserved index, and resolving an alpha-0
pixel performs no cache lookup, no cache write and no palette search.  The
fps-taking `EncodeGIF` violates this (see the counterexample on
`encodeGIFFps`). -/
theorem c2_transparency (fuel delay : Nat) (st : PoolState) (m0 : Img)
    (rest : List Img) (out : EncodedGIF)
    (htr : ∃ mi ∈ m0 :: rest, ∃ x y : Nat,
      x < m0.w ∧ y < m0.h ∧ (mi.pix x y).a = 0)
    (henc : encodeGIF fuel st (m0 :: rest) delay = some out) :
    (∃ entries, out.palette = entries ++ [⟨0, 0, 0, 0⟩] ∧
      out.transId = entries.length ∧ ∀ e ∈ entries, e.a ≠ 0) ∧
    (∀ i x y : Nat, i < (m0 :: rest).length →
      x < ((m0 :: rest).getD i imgDefault).w →
      y < ((m0 :: rest).getD i imgDefault).h →
      (((m0 :: rest).getD i imgDefault).pix x y).a = 0 →
      (out.frames.getD i []).getD (y * ((m0 :: rest).getD i imgDefault).w + x)
        (out.transId + 1) = out.transId) ∧
    (∀ (pal2 : List Rgba) (c : Rgba) (cache : IdCache), c.a = 0 →
      resolvePix true out.transId pal2 c cache = (out.transId, cache, false)) := by
  obtain ⟨p', q', stx, hq, htid, hpal, hframes⟩ :=
    encodeGIF_some fuel delay st m0 rest out henc
  obtain ⟨bucket, sty, hbuild, hslice⟩ :=
    quantizeMultiple_some fuel ⟨.Mode, none, false⟩ st ⟨256, []⟩ (m0 :: rest)
      p' q' stx hq
  obtain ⟨hmut, hagg, -⟩ :=
    buildBucketMultiple_mutation fuel ⟨.Mode, none, false⟩ st (m0 :: rest)
      bucket q' sty hbuild
  have hany : anyTransparent (m0 :: rest) = true := by
    unfold anyTransparent
    rw [List.any_eq_true]
    obtain ⟨mi, hmi, x, y, hx, hy, ha⟩ := htr
    exact ⟨(mi, x, y), mem_allPixels (m0 :: rest) m0.w m0.h x y mi hmi hx hy,
      by simpa using ha⟩
  have hrt : q'.reserveTransparent = true := by
    rw [hmut, hany, Bool.or_true]
  rcases quantizeSlice_some fuel q' ⟨256, []⟩ bucket p' hslice with
    ⟨-, bs, hbk, hp'⟩ | ⟨hneg, -, -⟩
  pick_goal 2
  · exfalso
    rw [hrt] at hneg
    simp at hneg
  rw [hrt] at hbk
  simp only [if_pos] at hbk
  have hbk' : bucketize fuel bucket 255 = some bs := by
    have : (((256 : Nat) : Int) - (List.length ([] : List Rgba)) - 1).toNat = 255 := by
      decide
    simpa [this] using hbk
  have hlen : p'.entries.length = bs.length := by
    rw [hp']
    simp only
    rw [palettize_length]
    simp
  have hb255 : bs.length ≤ 255 := (bucketize_len fuel 255 bucket bs hbk').1
  have htid' : out.transId = p'.entries.length := by
    rw [htid, if_pos hrt, Nat.mod_eq_of_lt (by omega)]
  refine ⟨⟨p'.entries, by rw [hpal, if_pos hrt], htid', ?_⟩, ?_, ?_⟩
  · intro e hemem
    rw [hp'] at hemem
    simp only at hemem
    rw [hagg] at hemem
    simp only at hemem
    rcases palettize_mode_mem bs [] e hemem with hnil | ⟨b, hbmem, hbval⟩
    · simp at hnil
    · have hbne : b ≠ [] := bucketize_nonempty fuel 255 bucket bs hbk' b hbmem
      rcases hbex : b with _ | ⟨s0, btail⟩
      · exact absurd hbex hbne
      · have hs0 : s0 ∈ b := by
          rw [hbex]
          exact List.mem_cons_self _ _
        have hs0b : s0 ∈ bucket :=
          bucketize_mem fuel 255 bucket bs hbk' b hbmem s0 hs0
        obtain ⟨hs0p, -⟩ := buildBucketMultiple_samples fuel ⟨.Mode, none, false⟩
          st (m0 :: rest) bucket q' sty hbuild s0 hs0b
        have hbest : bestSample b ∈ b := bestSample_mem b s0 hs0 (by omega)
        have hbb : bestSample b ∈ bucket :=
          bucketize_mem fuel 255 bucket bs hbk' b hbmem _ hbest
        obtain ⟨-, hba⟩ := buildBucketMultiple_samples fuel ⟨.Mode, none, false⟩
          st (m0 :: rest) bucket q' sty hbuild _ hbb
        rw [hbval]
        exact hba
  · intro i x y hi hx hy ha
    rw [hrt] at hframes
    obtain ⟨cache', hshape⟩ := emitFrames_frame_shape true out.transId out.palette
      (m0 :: rest) [] i hi
    rw [hframes, hshape]
    refine emitPixList_transparent _ _ _ _ cache' _ ?_ ?_
    · rw [pixelsOf_length]
      exact pos_lt_area x y _ _ hx hy
    · rw [pixelsOf_getD _ _ x y hx hy]
      exact ha
  · intro pal2 c cache hca
    rw [resolvePix, if_pos ⟨rfl, hca⟩]

/-- Witness for C2: a single 1×1 frame whose pixel is fully transparent. -/
theorem c2_witness :
    (∃ mi ∈ [(⟨1, 1, fun _ _ => ⟨5, 5, 5, 0⟩⟩ : Img)], ∃ x y : Nat,
      x < 1 ∧ y < 1 ∧ (mi.pix x y).a = 0) ∧
    ((∃ entries,
        (EncodedGIF.mk [⟨0, 0, 0, 0⟩] [[0]] 0 [7] ⟨2, some (.ptr [])⟩).palette =
          entries ++ [⟨0, 0, 0, 0⟩] ∧
        (EncodedGIF.mk [⟨0, 0, 0, 0⟩] [[0]] 0 [7] ⟨2, some (.ptr [])⟩).transId =
          entries.length ∧
        ∀ e ∈ entries, e.a ≠ 0) ∧
      (∀ i x y : Nat,
        i < ([(⟨1, 1, fun _ _ => ⟨5, 5, 5, 0⟩⟩ : Img)]).length →
        x < (([(⟨1, 1, fun _ _ => ⟨5, 5, 5, 0⟩⟩ : Img)]).getD i imgDefault).w →
        y < (([(⟨1, 1, fun _ _ => ⟨5, 5, 5, 0⟩⟩ : Img)]).getD i imgDefault).h →
        ((([(⟨1, 1, fun _ _ => ⟨5, 5, 5, 0⟩⟩ : Img)]).getD i imgDefault).pix x y).a = 0 →
        ((EncodedGIF.mk [⟨0, 0, 0, 0⟩] [[0]] 0 [7] ⟨2, some (.ptr [])⟩).frames.getD i
            []).getD
          (y * (([(⟨1, 1, fun _ _ => ⟨5, 5, 5, 0⟩⟩ : Img)]).getD i imgDefault).w + x)
          ((EncodedGIF.mk [⟨0, 0, 0, 0⟩] [[0]] 0 [7] ⟨2, some (.ptr [])⟩).transId + 1) =
          (EncodedGIF.mk [⟨0, 0, 0, 0⟩] [[0]] 0 [7] ⟨2, some (.ptr [])⟩).transId) ∧
      (∀ (pal2 : List Rgba) (c : Rgba) (cache : IdCache), c.a = 0 →
        resolvePix true
          (EncodedGIF.mk [⟨0, 0, 0, 0⟩] [[0]] 0 [7] ⟨2, some (.ptr [])⟩).transId pal2 c
          cache =
          ((EncodedGIF.mk [⟨0, 0, 0, 0⟩] [[0]] 0 [7] ⟨2, some (.ptr [])⟩).transId,
            cache, false))) :=
  ⟨⟨⟨1, 1, fun _ _ => ⟨5, 5, 5, 0⟩⟩, List.mem_cons_self _ _, 0, 0, by omega, by omega, rfl⟩,
    c2_transparency 2 7 ⟨0, none⟩ ⟨1, 1, fun _ _ => ⟨5, 5, 5, 0⟩⟩ [] 
      ⟨[⟨0, 0, 0, 0⟩], [[0]], 0, [7], ⟨2, some (.ptr [])⟩⟩
      ⟨⟨1, 1, fun _ _ => ⟨5, 5, 5, 0⟩⟩, List.mem_cons_self _ _, 0, 0,
        Nat.zero_lt_one, Nat.zero_lt_one, rfl⟩
      rfl⟩

/-- Slot visited at the `k`-th attempt of the probe sequence for color `c`:
the probe starts at `colorIndex c` and the step grows by one per attempt. -/
def walkIdx (c : Rgba) : Nat → Nat
  | 0 => colorIndex c
  | k + 1 => walkIdx c k + 1 + (k + 1)

/-- Attempt `j` of the probe sequence for `c` hits an occupied slot holding
a different color. -/
def blockedAt (tbl : List colorPriority) (size : Nat) (c : Rgba) (j : Nat) : Prop :=
  (tbl.getD (walkIdx c j % size) zeroSample).p ≠ 0 ∧
  (tbl.getD (walkIdx c j % size) zeroSample).rgba ≠ c

/-- The sparse-table invariant: every occupied slot is reachable by its own
color's probe sequence, with every earlier attempt of that sequence blocked.
It forces distinct occupied slots to hold distinct colors. -/
def slotInv (tbl : List colorPriority) (size : Nat) : Prop :=
  ∀ t, t < tbl.length → (tbl.getD t zeroSample).p ≠ 0 →
    ∃ k, walkIdx (tbl.getD t zeroSample).rgba k % size = t ∧
      ∀ j, j < k → blockedAt tbl size (tbl.getD t zeroSample).rgba j

lemma probeInsert_walk : ∀ (fuel k : Nat) (tbl : List colorPriority)
    (size prio : Nat) (c : Rgba) (tbl' : List colorPriority),
    probeInsert fuel tbl size (walkIdx c k) (k + 1) prio c = some tbl' →
    ∃ m, k ≤ m ∧ (∀ j, k ≤ j → j < m → blockedAt tbl size c j) ∧
      ((tbl.getD (walkIdx c m % size) zeroSample).p = 0 ∨
        (tbl.getD (walkIdx c m % size) zeroSample).rgba = c) ∧
      tbl' = tbl.set (walkIdx c m % size)
        ⟨(tbl.getD (walkIdx c m % size) zeroSample).p + prio, c⟩
  | 0, k, tbl, size, prio, c, tbl', h => by simp [probeInsert] at h
  | fuel + 1, k, tbl, size, prio, c, tbl', h => by
    simp only [probeInsert] at h
    split at h
    · rename_i hopen
      simp only [Option.some.injEq] at h
      exact ⟨k, Nat.le_refl k, fun j hj1 hj2 => absurd hj1 (by omega), hopen, h.symm⟩
    · rename_i hblock
      push_neg at hblock
      have hnext : walkIdx c k + 1 + (k + 1) = walkIdx c (k + 1) := rfl
      rw [hnext] at h
      obtain ⟨m, hm1, hm2, hm3, hm4⟩ :=
        probeInsert_walk fuel (k + 1) tbl size prio c tbl' h
      refine ⟨m, by omega, ?_, hm3, hm4⟩
      intro j hj1 hj2
      rcases Nat.eq_or_lt_of_le hj1 with hjk | hjk
      · rw [← hjk]
        exact ⟨hblock.1, hblock.2⟩
      · exact hm2 j hjk hj2

lemma getD_set_self (l : List colorPriority) (n : Nat) (v : colorPriority)
    (h : n < l.length) : (l.set n v).getD n zeroSample = v := by
  rw [List.getD_eq_getElem _ _ (by simpa using h)]
  exact List.getElem_set_self _

lemma getD_set_ne (l : List colorPriority) (n m : Nat) (v : colorPriority)
    (h : n ≠ m) : (l.set n v).getD m zeroSample = l.getD m zeroSample := by
  rcases Nat.lt_or_ge m l.length with hm | hm
  · rw [List.getD_eq_getElem _ _ (by simpa using hm), List.getD_eq_getElem _ _ hm]
    exact List.getElem_set_ne h _
  · rw [List.getD_eq_default _ _ (by simpa using hm), List.getD_eq_default _ _ hm]

lemma slotInv_insert (tbl : List colorPriority) (size fuel prio : Nat) (c : Rgba)
    (tbl' : List colorPriority) (hinv : slotInv tbl size)
    (hlen : tbl.length = size) (hpos : 0 < size) (hprio : prio ≠ 0)
    (h : probeInsert fuel tbl size (colorIndex c) 1 prio c = some tbl') :
    slotInv tbl' size := by
  have h0 : probeInsert fuel tbl size (walkIdx c 0) (0 + 1) prio c = some tbl' := h
  obtain ⟨m, -, hblk, hopen, hset⟩ := probeInsert_walk fuel 0 tbl size prio c tbl' h0
  have hblk' : ∀ j, j < m → blockedAt tbl size c j := fun j hj =>
    hblk j (Nat.zero_le j) hj
  set u := walkIdx c m % size with hu
  set old := tbl.getD u zeroSample with hold
  have hult : u < tbl.length := by
    rw [hlen]
    exact Nat.mod_lt _ hpos
  have hlen' : tbl'.length = tbl.length := by
    rw [hset, List.length_set]
  intro t htlt htp
  rw [hlen'] at htlt
  by_cases htu : t = u
  · subst htu
    have hval : tbl'.getD u zeroSample = ⟨old.p + prio, c⟩ := by
      rw [hset]
      exact getD_set_self tbl u _ hult
    rw [hval]
    refine ⟨m, hu.symm, ?_⟩
    intro j hj
    have hb := hblk' j hj
    have huj : walkIdx c j % size ≠ u := by
      intro heq
      obtain ⟨hb1, hb2⟩ := hb
      rw [heq] at hb1 hb2
      rcases hopen with hop | hop
      · exact hb1 hop
      · exact hb2 hop
    constructor
    · rw [hset, getD_set_ne tbl u _ _ (fun he => huj he.symm)]
      exact hb.1
    · rw [hset, getD_set_ne tbl u _ _ (fun he => huj he.symm)]
      exact hb.2
  · have hval : tbl'.getD t zeroSample = tbl.getD t zeroSample := by
      rw [hset]
      exact getD_set_ne tbl u t _ (fun he => htu he.symm)
    rw [hval] at htp ⊢
    obtain ⟨k, hk1, hk2⟩ := hinv t htlt htp
    refine ⟨k, hk1, ?_⟩
    intro j hj
    have hb := hk2 j hj
    set d := (tbl.getD t zeroSample).rgba with hd
    by_cases hwj : walkIdx d j % size = u
    · have holdp : old.p ≠ 0 := by
        rw [hold, ← hwj]
        exact hb.1
      have holdc : old.rgba = c := by
        rcases hopen with hop | hop
        · exact absurd hop holdp
        · exact hop
      have hval2 : tbl'.getD (walkIdx d j % size) zeroSample = ⟨old.p + prio, c⟩ := by
        rw [hset, hwj]
        exact getD_set_self tbl u _ hult
      constructor
      · rw [hval2]
        simp only
        omega
      · rw [hval2]
        simp only
        rw [← holdc, hold, ← hwj]
        exact hb.2
    · have hval2 : tbl'.getD (walkIdx d j % size) zeroSample =
          tbl.getD (walkIdx d j % size) zeroSample := by
        rw [hset]
        exact getD_set_ne tbl u _ _ (fun he => hwj he.symm)
      exact ⟨by rw [hval2]; exact hb.1, by rw [hval2]; exact hb.2⟩

lemma slotInv_inj_aux (tbl : List colorPriority) (size : Nat)
    (t1 t2 k1 k2 : Nat) (d : Rgba)
    (h1c : (tbl.getD t1 zeroSample).rgba = d) (h2c : (tbl.getD t2 zeroSample).rgba = d)
    (h1p : (tbl.getD t1 zeroSample).p ≠ 0)
    (hk1 : walkIdx d k1 % size = t1)
    (hk2b : ∀ j, j < k2 → blockedAt tbl size d j)
    (hlt : k1 < k2) : False := by
  have hb2 := (hk2b k1 hlt).2
  rw [hk1] at hb2
  exact hb2 h1c

lemma slotInv_inj (tbl : List colorPriority) (size : Nat) (hinv : slotInv tbl size)
    (t1 t2 : Nat) (h1 : t1 < tbl.length) (h2 : t2 < tbl.length)
    (h1p : (tbl.getD t1 zeroSample).p ≠ 0) (h2p : (tbl.getD t2 zeroSample).p ≠ 0)
    (hne : t1 ≠ t2) :
    (tbl.getD t1 zeroSample).rgba ≠ (tbl.getD t2 zeroSample).rgba := by
  intro heq
  obtain ⟨k1, hk1a, hk1b⟩ := hinv t1 h1 h1p
  obtain ⟨k2, hk2a, hk2b⟩ := hinv t2 h2 h2p
  rw [heq] at hk1a hk1b
  rcases Nat.lt_trichotomy k1 k2 with hlt | hkeq | hlt
  · exact slotInv_inj_aux tbl size t1 t2 k1 k2 _ heq rfl h1p hk1a hk2b hlt
  · rw [hkeq, hk2a] at hk1a
    exact hne hk1a.symm
  · exact slotInv_inj_aux tbl size t2 t1 k2 k1 _ rfl heq h2p hk2a hk1b hlt

lemma scanList_slotInv (wfn : Option (Img → Nat → Nat → Nat)) (fuel size : Nat) :
    ∀ (ps : List (Img × Nat × Nat)) (tbl : List colorPriority) (rt : Bool)
      (tbl' : List colorPriority) (rt' : Bool),
      scanList wfn size fuel ps (tbl, rt) = some (tbl', rt') →
      slotInv tbl size → tbl.length = size → 0 < size →
      slotInv tbl' size ∧ tbl'.length = size
  | [], tbl, rt, tbl', rt', h, hinv, hlen, _ => by
    simp only [scanList, Option.some.injEq, Prod.ext_iff] at h
    rw [← h.1]
    exact ⟨hinv, hlen⟩
  | ⟨m, x, y⟩ :: rest, tbl, rt, tbl', rt', h, hinv, hlen, hpos => by
    simp only [scanList, scanPixel, colorAt] at h
    generalize hpr : (match wfn with | none => 1 | some f => f m x y) = prio at h
    by_cases ha : (m.pix x y).a = 0
    · rw [if_pos ha, Option.some_bind] at h
      exact scanList_slotInv wfn fuel size rest tbl true tbl' rt' h hinv hlen hpos
    · rw [if_neg ha] at h
      split at h
      · rename_i hprio
        rcases hp : probeInsert fuel tbl size (colorIndex (m.pix x y)) 1 prio (m.pix x y)
            with _ | t
        · rw [hp] at h
          simp at h
        · rw [hp, Option.map_some', Option.some_bind] at h
          have hinv' := slotInv_insert tbl size fuel prio (m.pix x y) t hinv hlen
            hpos hprio hp
          have hlent : t.length = size := by
            rw [probeInsert_length fuel tbl size _ _ prio (m.pix x y) t hp, hlen]
          exact scanList_slotInv wfn fuel size rest t rt tbl' rt' h hinv' hlent hpos
      · rw [Option.some_bind] at h
        exact scanList_slotInv wfn fuel size rest tbl rt tbl' rt' h hinv hlen hpos

lemma slotInv_replicate (size : Nat) : slotInv (List.replicate size zeroSample) size := by
  intro t htlt htp
  exfalso
  apply htp
  rcases Nat.lt_or_ge t (List.replicate size zeroSample).length with hm | hm
  · rw [List.getD_eq_getElem _ _ hm]
    rw [List.getElem_replicate]
    rfl
  · exact absurd hm (by omega)

lemma filter_map_nodup (tbl : List colorPriority) (size : Nat)
    (hinv : slotInv tbl size) :
    ((tbl.filter (fun s => s.p != 0)).map (fun s => s.rgba)).Nodup := by
  have hpair : tbl.Pairwise
      (fun a b => a.p ≠ 0 → b.p ≠ 0 → a.rgba ≠ b.rgba) := by
    rw [List.pairwise_iff_getElem]
    intro i j hi hj hij hip hjp
    have hgi : tbl.getD i zeroSample = tbl[i] := List.getD_eq_getElem _ _ hi
    have hgj : tbl.getD j zeroSample = tbl[j] := List.getD_eq_getElem _ _ hj
    have := slotInv_inj tbl size hinv i j hi hj (by rw [hgi]; exact hip)
      (by rw [hgj]; exact hjp) (by omega)
    rw [hgi, hgj] at this
    exact this
  have hpf : (tbl.filter (fun s => s.p != 0)).Pairwise
      (fun a b => a.p ≠ 0 → b.p ≠ 0 → a.rgba ≠ b.rgba) :=
    hpair.sublist (List.filter_sublist tbl)
  have hpf2 : (tbl.filter (fun s => s.p != 0)).Pairwise
      (fun a b => a.rgba ≠ b.rgba) := by
    refine hpf.imp_of_mem ?_
    intro a b ha hb hr
    have hap : a.p ≠ 0 := by simpa using List.of_mem_filter ha
    have hbp : b.p ≠ 0 := by simpa using List.of_mem_filter hb
    exact hr hap hbp
  exact List.pairwise_map.mpr hpf2

/-- The colors of the opaque pixels of the input images, each image walked
over its own bounds. -/
def opaqueColorsOf (ms : List Img) : List Rgba :=
  (ms.flatMap (fun m => (pixelsOf m.w m.h).map (fun xy => m.pix xy.1 xy.2))).filter
    (fun c => c.a != 0)

/-- The number of distinct opaque colors present in the input images. -/
def distinctOpaqueCount (ms : List Img) : Nat := (opaqueColorsOf ms).dedup.length

lemma mem_pixelsOf_bounds (w h x y : Nat) (h1 : (x, y) ∈ pixelsOf w h) :
    x < w ∧ y < h := by
  unfold pixelsOf at h1
  rw [List.mem_flatMap] at h1
  obtain ⟨y', hy', hmem⟩ := h1
  rw [List.mem_map] at hmem
  obtain ⟨x', hx', heq⟩ := hmem
  obtain ⟨he1, he2⟩ := Prod.mk.injEq .. ▸ heq
  rw [← he1, ← he2]
  exact ⟨List.mem_range.mp hx', List.mem_range.mp hy'⟩

lemma nodup_length_le_dedup (l l' : List Rgba) (hnd : l.Nodup)
    (hsub : ∀ x ∈ l, x ∈ l') : l.length ≤ l'.dedup.length := by
  have h1 : l.toFinset.card = l.length := List.toFinset_card_of_nodup hnd
  have h2 : l'.toFinset.card = l'.dedup.length := List.card_toFinset l'
  have hsub' : l.toFinset ⊆ l'.toFinset := by
    intro x hx
    rw [List.mem_toFinset] at hx ⊢
    exact hsub x hx
  have := Finset.card_le_card hsub'
  omega

lemma scanned_mem_opaque (ms : List Img) (w0 h0 : Nat)
    (hdim : ∀ m ∈ ms, m.w = w0 ∧ m.h = h0)
    (px : Img × Nat × Nat) (hpx : px ∈ allPixels ms w0 h0)
    (ha : (px.1.pix px.2.1 px.2.2).a ≠ 0) :
    px.1.pix px.2.1 px.2.2 ∈ opaqueColorsOf ms := by
  unfold allPixels at hpx
  rw [List.mem_flatMap] at hpx
  obtain ⟨m, hm, hmem⟩ := hpx
  rw [List.mem_map] at hmem
  obtain ⟨xy, hxy, heq⟩ := hmem
  obtain ⟨hw, hh⟩ := hdim m hm
  rw [← heq] at ha ⊢
  simp only at ha ⊢
  unfold opaqueColorsOf
  rw [List.mem_filter]
  constructor
  · rw [List.mem_flatMap]
    refine ⟨m, hm, ?_⟩
    rw [List.mem_map]
    refine ⟨xy, ?_, rfl⟩
    rw [hw, hh]
    exact hxy
  · simpa using ha

lemma buildBucketMultiple_distinct (fuel : Nat) (q : MedianCutQuantizer)
    (st : PoolState) (m0 : Img) (rest : List Img) (bucket : List colorPriority)
    (q' : MedianCutQuantizer) (st' : PoolState)
    (hdim : ∀ m ∈ m0 :: rest, m.w = m0.w ∧ m.h = m0.h)
    (h : buildBucketMultiple fuel q st (m0 :: rest) = some (bucket, q', st')) :
    bucket.length ≤ distinctOpaqueCount (m0 :: rest) := by
  simp only [buildBucketMultiple] at h
  rcases hg : getBucket st (m0.w * m0.h * 2) with _ | bst
  · rw [hg] at h
    simp at h
  · rw [hg] at h
    simp only [Option.some_bind] at h
    obtain ⟨htbl, -, -⟩ := getBucket_some st _ bst.1 bst.2 (by rw [hg])
    rcases hs : scanList q.weighting (m0.w * m0.h * 2) fuel
        (allPixels (m0 :: rest) m0.w m0.h) (bst.1, q.reserveTransparent)
      with _ | tr
    · rw [hs] at h
      simp at h
    · rw [hs] at h
      simp only [Option.map_some', Option.some.injEq, Prod.mk.injEq] at h
      obtain ⟨hb, -, -⟩ := h
      rcases Nat.eq_zero_or_pos (m0.w * m0.h) with hz | hpos
      · rw [allPixels_eq_nil _ _ _ hz] at hs
        simp only [scanList, Option.some.injEq, Prod.ext_iff] at hs
        rw [← hb, ← hs.1, htbl, filter_replicate_zero]
        simp
      · have hlen : bst.1.length = m0.w * m0.h * 2 := by
          rw [htbl, List.length_replicate]
        have hspos : 0 < m0.w * m0.h * 2 := by omega
        obtain ⟨hinv, -⟩ := scanList_slotInv q.weighting fuel (m0.w * m0.h * 2)
          (allPixels (m0 :: rest) m0.w m0.h) bst.1 q.reserveTransparent tr.1 tr.2
          (by rw [hs]) (htbl ▸ slotInv_replicate _) hlen hspos
        have hnd := filter_map_nodup tr.1 (m0.w * m0.h * 2) hinv
        have hsubset : ∀ x ∈ (tr.1.filter (fun s => s.p != 0)).map (fun s => s.rgba),
            x ∈ opaqueColorsOf (m0 :: rest) := by
          intro x hx
          rw [List.mem_map] at hx
          obtain ⟨s, hsf, hsx⟩ := hx
          have hsp : s.p ≠ 0 := by simpa using List.of_mem_filter hsf
          have hsmem : s ∈ tr.1 := List.mem_of_mem_filter hsf
          have := scanList_keepP (fun col => col ∈ opaqueColorsOf (m0 :: rest))
            q.weighting fuel (m0.w * m0.h * 2) (allPixels (m0 :: rest) m0.w m0.h)
            bst.1 q.reserveTransparent tr.1 tr.2 (by rw [hs])
            (fun px hpx hpa => scanned_mem_opaque (m0 :: rest) m0.w m0.h hdim px hpx hpa)
            ?_ s hsmem hsp
          · rw [← hsx]
            exact this
          · intro t htm
            rw [htbl] at htm
            rw [List.eq_of_mem_replicate htm]
            intro hfalse
            exact absurd rfl hfalse
        have hcount := nodup_length_le_dedup _ _ hnd hsubset
        rw [List.length_map] at hcount
        rw [← hb]
        exact hcount

/-- C1 (amended): whenever the remaining capacity
`C = cap − length − (1 when a transparent slot is reserved)` is non-negative,
the palette returned by `QuantizeMultiple` gains at most `C` entries; it
always gains at most as many entries as there are distinct opaque colors in
the (same-bounds) input frames. -/
theorem c1_palette_bounds (fuel : Nat) (q : MedianCutQuantizer) (st : PoolState)
    (p p' : Palette) (q' : MedianCutQuantizer) (st' : PoolState)
    (m0 : Img) (rest : List Img)
    (hdim : ∀ m ∈ m0 :: rest, m.w = m0.w ∧ m.h = m0.h)
    (h : quantizeMultiple fuel q st p (m0 :: rest) = some (p', q', st')) :
    (0 ≤ (p.cap : Int) - p.entries.length -
        (if q'.reserveTransparent then 1 else 0) →
      (p'.entries.length : Int) ≤ p.entries.length +
        ((p.cap : Int) - p.entries.length -
          (if q'.reserveTransparent then 1 else 0))) ∧
    p'.entries.length ≤ p.entries.length + distinctOpaqueCount (m0 :: rest) := by
  obtain ⟨bucket, stx, hbuild, hslice⟩ :=
    quantizeMultiple_some fuel q st p (m0 :: rest) p' q' st' h
  rcases quantizeSlice_some fuel q' p bucket p' hslice with
    ⟨hC, bs, hbk, hp'⟩ | ⟨hneg, -, hp'⟩
  · have hlen : p'.entries.length = p.entries.length + bs.length := by
      rw [hp']
      simp only
      rw [palettize_length]
    obtain ⟨hnum, hcol⟩ := bucketize_len fuel _ bucket bs hbk
    constructor
    · intro hge
      have htn : ((((p.cap : Int) - p.entries.length -
          (if q'.reserveTransparent then 1 else 0)).toNat : Int)) =
          (p.cap : Int) - p.entries.length -
            (if q'.reserveTransparent then 1 else 0) :=
        Int.toNat_of_nonneg hC
      omega
    · have hdist := buildBucketMultiple_distinct fuel q st m0 rest bucket q' stx
        hdim hbuild
      omega
  · have hlen : p'.entries.length = p.entries.length := by
      rw [hp']
    constructor
    · intro hge
      exact absurd hge (by omega)
    · omega

/-- A 1×1 frame whose single pixel is fully transparent. -/
def imTrans : Img := ⟨1, 1, fun _ _ => ⟨5, 5, 5, 0⟩⟩

/-- C1 as stated is false: on a caller-supplied palette that is already full
(`cap = len = 5`) together with one all-transparent 1×1 frame, the scan
reserves transparency, the claimed capacity `C = 5 − 5 − 1` is `−1`, yet
`QuantizeMultiple` succeeds (the histogram bucket is empty, so `bucketize`'s
`len(colors) == 0` early return precedes the negative `make`) and returns the
5-entry palette — more than `C` entries. -/
theorem c1_counterexample :
    quantizeMultiple 1 ⟨.Mode, none, false⟩ ⟨0, none⟩
        ⟨5, [⟨1, 0, 0, 255⟩, ⟨2, 0, 0, 255⟩, ⟨3, 0, 0, 255⟩, ⟨4, 0, 0, 255⟩,
          ⟨5, 0, 0, 255⟩]⟩ [imTrans] =
      some (⟨5, [⟨1, 0, 0, 255⟩, ⟨2, 0, 0, 255⟩, ⟨3, 0, 0, 255⟩, ⟨4, 0, 0, 255⟩,
          ⟨5, 0, 0, 255⟩]⟩, ⟨.Mode, none, true⟩, ⟨2, some (.ptr [])⟩) ∧
    ¬(((Palette.mk 5 [⟨1, 0, 0, 255⟩, ⟨2, 0, 0, 255⟩, ⟨3, 0, 0, 255⟩,
          ⟨4, 0, 0, 255⟩, ⟨5, 0, 0, 255⟩]).entries.length : Int) ≤
        (Palette.mk 5 [⟨1, 0, 0, 255⟩, ⟨2, 0, 0, 255⟩, ⟨3, 0, 0, 255⟩,
          ⟨4, 0, 0, 255⟩, ⟨5, 0, 0, 255⟩]).entries.length +
        (((Palette.mk 5 [⟨1, 0, 0, 255⟩, ⟨2, 0, 0, 255⟩, ⟨3, 0, 0, 255⟩,
            ⟨4, 0, 0, 255⟩, ⟨5, 0, 0, 255⟩]).cap : Int) -
          (Palette.mk 5 [⟨1, 0, 0, 255⟩, ⟨2, 0, 0, 255⟩, ⟨3, 0, 0, 255⟩,
            ⟨4, 0, 0, 255⟩, ⟨5, 0, 0, 255⟩]).entries.length -
          (if (MedianCutQuantizer.mk .Mode none true).reserveTransparent
            then 1 else 0))) :=
  ⟨rfl, by decide⟩

/-- Witness for C1: one 1×1 solid red frame quantized onto an empty
capacity-256 palette. -/
theorem c1_witness :
    (∀ m ∈ [imR], m.w = imR.w ∧ m.h = imR.h) ∧
      ((0 ≤ ((Palette.mk 256 [] : Palette).cap : Int) -
          (Palette.mk 256 [] : Palette).entries.length -
          (if (MedianCutQuantizer.mk .Mode none false).reserveTransparent
            then 1 else 0) →
        ((Palette.mk 256 [⟨255, 0, 0, 255⟩]).entries.length : Int) ≤
          (Palette.mk 256 []).entries.length +
            (((Palette.mk 256 [] : Palette).cap : Int) -
              (Palette.mk 256 [] : Palette).entries.length -
              (if (MedianCutQuantizer.mk .Mode none false).reserveTransparent
                then 1 else 0))) ∧
        (Palette.mk 256 [⟨255, 0, 0, 255⟩]).entries.length ≤
          (Palette.mk 256 []).entries.length + distinctOpaqueCount [imR]) :=
  ⟨fun m hm => by rw [List.mem_singleton.mp hm]; exact ⟨rfl, rfl⟩,
    c1_palette_bounds 2 ⟨.Mode, none, false⟩ ⟨0, none⟩ ⟨256, []⟩
      ⟨256, [⟨255, 0, 0, 255⟩]⟩ ⟨.Mode, none, false⟩
      ⟨2, some (.ptr [⟨1, ⟨255, 0, 0, 255⟩⟩])⟩ imR []
      (fun m hm => by rw [List.mem_singleton.mp hm]; exact ⟨rfl, rfl⟩) rfl⟩

/-- The fps-taking `EncodeGIF` from the source: same quantization, same
reservation of one trailing transparent palette entry
(`append(p, color.RGBA{0,0,0,0})`), same truncated-key cache — but every
alpha-0 pixel is written as `dst.Pix[o] = 0`, not as the reserved trailing
index.  Its transparent-pixel branch is `resolvePix` with a forced index of
`0`, so the emission loop is shared.  Only the palette and the per-frame
index buffers are modelled: the per-frame delay is derived from `fps` by
`float32` arithmetic, and no claim concerns its value. -/
def encodeGIFFps (fuel : Nat) (st : PoolState) (ims : List Img) (fps : Nat) :
    Option (List Rgba × List (List Nat)) :=
  match ims with
  | [] => none
  | _ :: _ =>
    (quantizeMultiple fuel ⟨.Mode, none, false⟩ st ⟨256, []⟩ ims).map
      (fun pqs =>
        ((if pqs.2.1.reserveTransparent then pqs.1.entries ++ [⟨0, 0, 0, 0⟩]
            else pqs.1.entries),
          (emitFrames ims pqs.2.1.reserveTransparent 0
            (if pqs.2.1.reserveTransparent then pqs.1.entries ++ [⟨0, 0, 0, 0⟩]
              else pqs.1.entries) []).1))

/-- A 2×1 frame with one opaque red pixel at `(0,0)` and one fully
transparent pixel at `(1,0)`. -/
def imMix : Img :=
  ⟨2, 1, fun x _ => if x = 0 then ⟨255, 0, 0, 255⟩ else ⟨0, 0, 0, 0⟩⟩

/-- C2 as stated is false of the fps-taking `EncodeGIF` the claim also
cites: on a frame mixing an opaque pixel with an alpha-0 pixel, the reserved
transparent slot is the trailing palette entry at index 1, yet the alpha-0
pixel at `(1,0)` is emitted with index 0 — the opaque red entry, not the
reserved slot. -/
theorem c2_counterexample :
    encodeGIFFps 2 ⟨0, none⟩ [imMix] 30 =
      some ([⟨255, 0, 0, 255⟩, ⟨0, 0, 0, 0⟩], [[0, 0]]) ∧
    ([⟨255, 0, 0, 255⟩, ⟨0, 0, 0, 0⟩] : List Rgba).getD 1 ⟨9, 9, 9, 9⟩ =
      ⟨0, 0, 0, 0⟩ ∧
    (imMix.pix 1 0).a = 0 ∧
    (([[0, 0]] : List (List Nat)).getD 0 []).getD (0 * imMix.w + 1) 9 = 0 ∧
    (0 : Nat) ≠ 1 :=
  ⟨rfl, rfl, rfl, rfl, by decide⟩
